import Mathlib

/-!
Verification of the graph-structural decomposition core of the storm
probabilistic model checker: the strongly connected component (SCC)
decomposition (StronglyConnectedComponentDecomposition.cpp) and the maximal
end component (MEC) decomposition (MaximalEndComponentDecomposition.cpp).

The C++ code is embedded shallowly: states and choices are natural numbers,
the sparse transition matrix is a list of rows, each row a list of
(successor, weight) entries, and the bit-vector / vector-set containers are
represented by their observable behaviour, namely sorted duplicate-free
lists of state indices iterated in ascending order.
-/

namespace storm

/-- Modelled from the spec: the repository's BitVector and VectorSet
(StateBlock) containers are not under src/.  Per the spec (§3, StateSet /
Block) they are semantic sets over [0,N) with ascending iteration order; we
represent them as sorted duplicate-free lists and model the `set`/`insert`
operation as ordered insertion. -/
def bvInsert (x : Nat) : List Nat → List Nat
  | [] => [x]
  | y :: ys => if x < y then x :: y :: ys else if x = y then y :: ys else y :: bvInsert x ys

/-- The read-only model view consumed by both engines: number of states, the
nondeterministic choice index vector (length numberOfStates + 1), and the
sparse transition matrix as a list of rows of (successor, weight) entries. -/
structure AbstractModel where
  numberOfStates : Nat
  nondeterministicChoiceIndices : List Nat
  transitionMatrix : List (List (Nat × Int))
deriving DecidableEq

/-- transitionMatrix.getRow(r): the entries of row r. -/
def AbstractModel.getRow (m : AbstractModel) (r : Nat) : List (Nat × Int) :=
  m.transitionMatrix.getD r []

/-- nondeterministicChoiceIndices[s]. -/
def AbstractModel.choiceIndex (m : AbstractModel) (s : Nat) : Nat :=
  m.nondeterministicChoiceIndices.getD s 0

/-- The choice rows of state s: the half-open range
[choiceIndex s, choiceIndex (s+1)). -/
def AbstractModel.choiceRange (m : AbstractModel) (s : Nat) : List Nat :=
  List.range' (m.choiceIndex s) (m.choiceIndex (s + 1) - m.choiceIndex s)

/-- model.getRows(s): all entries of all choice rows of state s, in row
order.  This is the successor iteration the SCC engine performs. -/
def AbstractModel.getRows (m : AbstractModel) (s : Nat) : List (Nat × Int) :=
  ((m.choiceRange s).map m.getRow).flatten

/-- Pointwise update of a function used to model array assignment. -/
def fupd {α : Type} (f : Nat → α) (i : Nat) (v : α) : Nat → α :=
  fun j => if j = i then v else f j

/-- The scratch state of the iterative Tarjan algorithm of
performSccDecompositionHelper: discovery indices, lowlinks, the explicit
Tarjan stack (head is the top) with its membership bits, the visited bits,
the per-root-call self-loop and can-leave-SCC bits, the running discovery
counter and the output blocks collected so far. -/
structure TarjanState where
  currentIndex : Nat
  stateIndices : Nat → Nat
  lowlinks : Nat → Nat
  tarjanStack : List Nat
  tarjanStackStates : Nat → Bool
  visitedStates : Nat → Bool
  statesWithSelfloop : Nat → Bool
  statesThatCanLeaveTheirScc : Nat → Bool
  blocks : List (List Nat)

/-- Pop states from the Tarjan stack until (and including) v: returns the
popped prefix and the remaining stack. -/
def popUpto (v : Nat) : List Nat → (List Nat × List Nat)
  | [] => ([], [])
  | x :: rest =>
    if x = v then ([x], rest)
    else
      let pr := popUpto v rest
      (x :: pr.1, pr.2)

/-- The close step of Tarjan's algorithm: when lowlink[v] = index[v], pop
the open SCC from the stack, build the (sorted) component, and keep it
unless the dropNaiveSccs or onlyBottomSccs filters reject it. -/
def closeScc (dropNaiveSccs onlyBottomSccs : Bool) (v : Nat) (st : TarjanState) : TarjanState :=
  let pr := popUpto v st.tarjanStack
  let popped := pr.1
  let scc : List Nat := popped.foldl (fun b x => bvInsert x b) []
  let newStackStates := popped.foldl (fun f x => fupd f x false) st.tarjanStackStates
  let isBottomScc := popped.all (fun x => ! st.statesThatCanLeaveTheirScc x)
  let keepScc :=
    ((! dropNaiveSccs) || (decide (1 < scc.length) || st.statesWithSelfloop (scc.headD 0))) &&
    ((! onlyBottomSccs) || isBottomScc)
  { st with
    tarjanStack := pr.2
    tarjanStackStates := newStackStates
    blocks := if keepScc then st.blocks ++ [scc] else st.blocks }

/-- Mark a state as visited, assign its discovery index and initial
lowlink, and push it onto the Tarjan stack. -/
def visitState (v : Nat) (st : TarjanState) : TarjanState :=
  { st with
    visitedStates := fupd st.visitedStates v true
    stateIndices := fupd st.stateIndices v st.currentIndex
    lowlinks := fupd st.lowlinks v st.currentIndex
    currentIndex := st.currentIndex + 1
    tarjanStack := v :: st.tarjanStack
    tarjanStackStates := fupd st.tarjanStackStates v true }

/-- Processing of the successor entries of currentState in
performSccDecompositionHelper; rec is the recursive descent into an
unvisited successor.  Mirrors the loop at the recursionStepForward label:
self-loop recording (when dropNaiveSccs), restriction to the subsystem, the
descent with the lowlink/can-leave update on return, the lowlink update for
on-stack successors, and the silent skip of closed successors. -/
def dfsEntries (subsystem : List Nat) (dropNaiveSccs onlyBottomSccs : Bool)
    (rec : Nat → TarjanState → TarjanState) (currentState : Nat) :
    List (Nat × Int) → TarjanState → TarjanState
  | [], st => st
  | e :: rest, st =>
    let st :=
      if dropNaiveSccs && (currentState == e.1) then
        { st with statesWithSelfloop := fupd st.statesWithSelfloop currentState true }
      else st
    let st :=
      if subsystem.contains e.1 then
        if st.visitedStates e.1 then
          if st.tarjanStackStates e.1 then
            { st with
              lowlinks := fupd st.lowlinks currentState
                (min (st.lowlinks currentState) (st.stateIndices e.1)) }
          else st
        else
          let st1 := rec e.1 st
          let st2 := { st1 with
            lowlinks := fupd st1.lowlinks currentState
              (min (st1.lowlinks currentState) (st1.lowlinks e.1)) }
          if onlyBottomSccs && ! (st2.lowlinks currentState == st2.lowlinks e.1) then
            { st2 with
              statesThatCanLeaveTheirScc := fupd st2.statesThatCanLeaveTheirScc currentState true }
          else st2
      else st
    dfsEntries subsystem dropNaiveSccs onlyBottomSccs rec currentState rest st

/-- The recursive core of performSccDecompositionHelper (the source unwinds
this recursion with explicit stacks and the recursionStepForward /
recursionStepBackward labels): visit the state, process all its successor
entries, and close its SCC if it is a root.  The fuel argument bounds the
recursion depth; the top level supplies numberOfStates + 1, which the
correctness lemmas show is never exhausted. -/
def dfs (m : AbstractModel) (subsystem : List Nat) (dropNaiveSccs onlyBottomSccs : Bool) :
    Nat → Nat → TarjanState → TarjanState
  | 0, _, st => st
  | fuel + 1, currentState, st =>
    let st := visitState currentState st
    let st := dfsEntries subsystem dropNaiveSccs onlyBottomSccs
      (dfs m subsystem dropNaiveSccs onlyBottomSccs fuel) currentState
      (m.getRows currentState) st
    if st.lowlinks currentState == st.stateIndices currentState then
      closeScc dropNaiveSccs onlyBottomSccs currentState st
    else st

/-- performSccDecompositionHelper: allocates the per-call self-loop and
can-leave bit vectors afresh and starts the depth-first search at
startState. -/
def performSccDecompositionHelper (m : AbstractModel) (subsystem : List Nat)
    (dropNaiveSccs onlyBottomSccs : Bool) (startState : Nat) (st : TarjanState) : TarjanState :=
  let st := { st with
    statesWithSelfloop := fun _ => false
    statesThatCanLeaveTheirScc := fun _ => false }
  dfs m subsystem dropNaiveSccs onlyBottomSccs (m.numberOfStates + 1) startState st

/-- The initial Tarjan environment of performSccDecomposition. -/
def initialTarjanState : TarjanState :=
  { currentIndex := 0
    stateIndices := fun _ => 0
    lowlinks := fun _ => 0
    tarjanStack := []
    tarjanStackStates := fun _ => false
    visitedStates := fun _ => false
    statesWithSelfloop := fun _ => false
    statesThatCanLeaveTheirScc := fun _ => false
    blocks := [] }

/-- performSccDecomposition: start the search from every not yet visited
state of the subsystem, in ascending order, and collect the blocks. -/
def performSccDecomposition (m : AbstractModel) (subsystem : List Nat)
    (dropNaiveSccs onlyBottomSccs : Bool) : List (List Nat) :=
  (subsystem.foldl
    (fun st s =>
      if st.visitedStates s then st
      else performSccDecompositionHelper m subsystem dropNaiveSccs onlyBottomSccs s st)
    initialTarjanState).blocks

/-- The SCC decomposition the MEC engine requests for a candidate block:
the call StronglyConnectedComponentDecomposition(model, mec, true) passes
dropNaiveSccs = true explicitly.  Modelled from the spec: the constructor's
defaulted fourth argument lives in the header, which is not under src/; per
the spec (§4.3, step 2a: no bottom-only) the default onlyBottomSccs is
false. -/
def mecSccs (m : AbstractModel) (mec : List Nat) : List (List Nat) :=
  performSccDecomposition m mec true false

/-- Whether state has at least one choice whose successors all lie in scc
(the keepStateInMEC test of the inner prune). -/
def hasChoiceContainedInMEC (m : AbstractModel) (scc : List Nat) (state : Nat) : Bool :=
  (m.choiceRange state).any (fun choice =>
    (m.getRow choice).all (fun entry => scc.contains entry.1))

/-- One iteration of the inner prune's while loop: compute the states of
statesToCheck with no fully contained choice (statesToRemove), erase them
from the SCC, and rebuild statesToCheck as the source does — for each
removed state it walks transitionMatrix.getRow(state), i.e. the forward row
whose raw index is the state id, and records the entries that are still in
the SCC.  Returns (new scc, new statesToCheck, whether states were
removed). -/
def pruneStep (m : AbstractModel) (scc statesToCheck : List Nat) :
    List Nat × List Nat × Bool :=
  let statesToRemove := statesToCheck.filter (fun s => ! hasChoiceContainedInMEC m scc s)
  let scc2 := scc.filter (fun s => ! statesToRemove.contains s)
  let newToCheck := statesToRemove.foldl
    (fun acc state =>
      (m.getRow state).foldl
        (fun acc2 entry => if scc2.contains entry.1 then bvInsert entry.1 acc2 else acc2)
        acc)
    []
  (scc2, newToCheck, ! statesToRemove.isEmpty)

/-- The inner prune's while loop over statesToCheck; returns the pruned SCC
and whether any state was ever removed.  The fuel bounds the number of
iterations; callers pass scc.length + 2, which suffices because every
iteration that continues removes at least one state. -/
def pruneLoop (m : AbstractModel) : Nat → List Nat → List Nat → (List Nat × Bool)
  | 0, scc, _ => (scc, false)
  | fuel + 1, scc, statesToCheck =>
    if statesToCheck.isEmpty then (scc, false)
    else
      let step := pruneStep m scc statesToCheck
      if step.2.2 then
        let rest := pruneLoop m fuel step.1 step.2.1
        (rest.1, true)
      else (scc, false)

/-- One refinement pass of the MEC fixpoint on candidate block mec: the SCC
decomposition (with dropNaiveSccs set), the mecChanged flag
(sccs.size() > 1 or any inner-prune removal), and the nonempty pruned SCCs
that would replace the candidate. -/
def mecPass (m : AbstractModel) (mec : List Nat) : Bool × List (List Nat) :=
  let sccs := mecSccs m mec
  let pruned := sccs.map (fun scc => pruneLoop m (scc.length + 2) scc scc)
  let mecChanged := decide (1 < sccs.length) || pruned.any (fun p => p.2)
  (mecChanged, (pruned.map (fun p => p.1)).filter (fun b => ! b.isEmpty))

/-- The outer fixpoint loop over the list of MEC candidates.  The source
walks a std::list with an iterator, erasing a changed candidate and
appending its replacement blocks at the back; this is the equivalent
worklist formulation, where checked denotes the candidates the iterator has
confirmed and left in place.  Fuel exhaustion yields none; the termination
theorem shows the top-level fuel is never exhausted. -/
def mecLoop (m : AbstractModel) : Nat → List (List Nat) → List (List Nat) →
    Option (List (List Nat))
  | 0, _, _ => none
  | _ + 1, checked, [] => some checked
  | fuel + 1, checked, mec :: rest =>
    let pass := mecPass m mec
    if pass.1 then mecLoop m fuel checked (rest ++ pass.2)
    else mecLoop m fuel (checked ++ [mec]) rest

/-- A MaximalEndComponent as materialized by the final loop: the states of
the block in ascending order, each with its retained choices (those whose
successors all stay in the block). -/
def buildMec (m : AbstractModel) (mecStateSet : List Nat) : List (Nat × List Nat) :=
  mecStateSet.map (fun state =>
    (state, (m.choiceRange state).filter (fun choice =>
      (m.getRow choice).all (fun entry => mecStateSet.contains entry.1))))

/-- The fuel given to the outer fixpoint loop; the termination theorem
shows it strictly dominates the loop's decreasing measure. -/
def mecFuel (m : AbstractModel) : Nat :=
  (m.numberOfStates + 3) ^ (m.numberOfStates + 1)

/-- performMaximalEndComponentDecomposition: seed the candidate list with
the subsystem, run the outer fixpoint, and materialize each surviving state
set into a MaximalEndComponent. -/
def performMaximalEndComponentDecomposition (m : AbstractModel) (subsystem : List Nat) :
    Option (List (List (Nat × List Nat))) :=
  (mecLoop m (mecFuel m) [] [subsystem]).map (fun sets => sets.map (buildMec m))

/-!  Specification-level relations used to state the claims. -/

/-- The edge relation the SCC engine traverses: s has an edge to t when
some entry of some choice row of s has successor t (the weight is not
examined). -/
def adjE (m : AbstractModel) (s t : Nat) : Prop :=
  ∃ e ∈ m.getRows s, e.1 = t

/-- One step of the entry graph restricted to a subsystem. -/
def stepR (m : AbstractModel) (subsystem : List Nat) (s t : Nat) : Prop :=
  s ∈ subsystem ∧ t ∈ subsystem ∧ adjE m s t

/-- Reachability in the entry graph restricted to a subsystem. -/
def Reach (m : AbstractModel) (subsystem : List Nat) : Nat → Nat → Prop :=
  Relation.ReflTransGen (stepR m subsystem)

/-- Mutual reachability in the entry graph restricted to a subsystem. -/
def MutualReach (m : AbstractModel) (subsystem : List Nat) (s t : Nat) : Prop :=
  Reach m subsystem s t ∧ Reach m subsystem t s

/-- The edge relation the specification prescribes for the traversed graph:
an edge exists only when some entry with successor t has positive weight. -/
def specPosEdge (m : AbstractModel) (s t : Nat) : Prop :=
  ∃ e ∈ m.getRows s, e.1 = t ∧ 0 < e.2

/-- One step of the specification's positive-weight graph restricted to a
subsystem. -/
def specPosStep (m : AbstractModel) (subsystem : List Nat) (s t : Nat) : Prop :=
  s ∈ subsystem ∧ t ∈ subsystem ∧ specPosEdge m s t

/-- Reachability in the specification's positive-weight graph restricted to
a subsystem. -/
def SpecPosReach (m : AbstractModel) (subsystem : List Nat) : Nat → Nat → Prop :=
  Relation.ReflTransGen (specPosStep m subsystem)

/-- The states of a materialized MaximalEndComponent. -/
def mecStates (mec : List (Nat × List Nat)) : List Nat :=
  mec.map Prod.fst

/-- One step inside a materialized MaximalEndComponent using only retained
choices and only states of the block. -/
def retainedStep (m : AbstractModel) (mec : List (Nat × List Nat)) (s t : Nat) : Prop :=
  s ∈ mecStates mec ∧ t ∈ mecStates mec ∧
    ∃ p ∈ mec, p.1 = s ∧ ∃ c ∈ p.2, ∃ e ∈ m.getRow c, e.1 = t

/-- A path using only retained choices and passing only through states of
the block. -/
def RetainedReach (m : AbstractModel) (mec : List (Nat × List Nat)) : Nat → Nat → Prop :=
  Relation.ReflTransGen (retainedStep m mec)

/-- The statesToCheck set the specification prescribes after an inner-prune
removal: the states of the (pruned) SCC with some choice row containing a
just-removed state as a successor. -/
def specStatesToCheck (m : AbstractModel) (scc toRemove : List Nat) : List Nat :=
  scc.filter (fun t =>
    (m.choiceRange t).any (fun c => (m.getRow c).any (fun e => toRemove.contains e.1)))

instance (m : AbstractModel) (s t : Nat) : Decidable (adjE m s t) :=
  inferInstanceAs (Decidable (∃ e ∈ m.getRows s, e.1 = t))

instance (m : AbstractModel) (subsystem : List Nat) (s t : Nat) :
    Decidable (stepR m subsystem s t) :=
  inferInstanceAs (Decidable (_ ∧ _ ∧ _))

instance (m : AbstractModel) (s t : Nat) : Decidable (specPosEdge m s t) :=
  inferInstanceAs (Decidable (∃ e ∈ m.getRows s, e.1 = t ∧ 0 < e.2))

instance (m : AbstractModel) (subsystem : List Nat) (s t : Nat) :
    Decidable (specPosStep m subsystem s t) :=
  inferInstanceAs (Decidable (_ ∧ _ ∧ _))

instance (m : AbstractModel) (mec : List (Nat × List Nat)) (s t : Nat) :
    Decidable (retainedStep m mec s t) :=
  inferInstanceAs (Decidable (_ ∧ _ ∧ ∃ p ∈ mec, p.1 = s ∧ ∃ c ∈ p.2, ∃ e ∈ m.getRow c, e.1 = t))

/-- Transport of an invariant along a reflexive-transitive closure. -/
theorem reflTransGen_invariant {r : Nat → Nat → Prop} {P : Nat → Prop}
    (hP : ∀ a b, P a → r a b → P b) {a b : Nat}
    (h : Relation.ReflTransGen r a b) (ha : P a) : P b := by
  induction h with
  | refl => exact ha
  | tail _ hstep ih => exact hP _ _ ih hstep

/-!  Concrete instances used as failing inputs and counterexamples. -/

/-- A deterministic three-state model: 0 goes to 1, 1 goes to 0, 2 goes
to 0.  Its maximal end components within the full state space are exactly
one: the block of states 0 and 1. -/
def mC1 : AbstractModel := ⟨3, [0, 1, 2, 3], [[(1, 1)], [(0, 1)], [(0, 1)]]⟩

/-- A two-state model whose matrix stores a zero-weight entry: row 0 is
(1, weight 1), row 1 is (0, weight 0).  Under positive-weight edge
semantics state 1 has no outgoing edge. -/
def mC8 : AbstractModel := ⟨2, [0, 1, 2], [[(1, 1)], [(0, 0)]]⟩

/-- A deterministic three-state model for the inner-prune bug: state 0
goes to 2 (leaving the candidate {0,1}), state 1 goes to 0 and to itself,
state 2 goes to itself. -/
def mC3 : AbstractModel := ⟨3, [0, 1, 2, 3], [[(2, 1)], [(0, 1), (1, 1)], [(2, 1)]]⟩

/-- A two-state model in which only state 1 has a self-loop; the SCC {0}
is trivial and is dropped by the dropNaiveSccs filter. -/
def mC4 : AbstractModel := ⟨2, [0, 1, 2], [[(1, 1)], [(1, 1)]]⟩

/-- A deterministic three-state model for the bottom-SCC bug: state 0 goes
to 1 and to 2, state 1 loops, state 2 goes to 1.  The SCC {2} is not a
bottom SCC (its edge to 1 leaves it), but the edge 2 -> 1 is a cross-edge
to an SCC closed earlier in the traversal. -/
def mC5 : AbstractModel := ⟨3, [0, 1, 2, 3], [[(1, 1), (2, 1)], [(1, 1)], [(1, 1)]]⟩

/-- A two-state model in which state 0 only goes to state 1: the singleton
{0} has no self-choice. -/
def mC7 : AbstractModel := ⟨2, [0, 1, 2], [[(1, 1)], [(1, 1)]]⟩

/-- The MaximalEndComponent block the engine outputs on mC1 (see C1). -/
def mecBlockC1 : List (Nat × List Nat) := [(0, [0]), (1, [1]), (2, [2])]

/-- From state 0, retained-choice steps inside mecBlockC1 stay in {0, 1}. -/
theorem retained_steps_stay_in_01 (a b : Nat) (ha : a ∈ ([0, 1] : List Nat))
    (hstep : retainedStep mC1 mecBlockC1 a b) : b ∈ ([0, 1] : List Nat) := by
  have ha2 : a ∈ ([0, 1, 2] : List Nat) :=
    (show mecStates mecBlockC1 = [0, 1, 2] from rfl) ▸ hstep.1
  have hb2 : b ∈ ([0, 1, 2] : List Nat) :=
    (show mecStates mecBlockC1 = [0, 1, 2] from rfl) ▸ hstep.2.1
  revert ha hstep
  fin_cases ha2 <;> fin_cases hb2 <;> decide

/-- C1: on the failing input mC1 with the full state space as subsystem,
the MEC engine outputs the single block {0, 1, 2} with retained choices
0 at 0, 1 at 1 and 2 at 2, yet there is no path from state 0 to state 2
using only retained choices inside the block: the dropNaiveSccs call
combined with the sccs.size() > 1 change test leaves the candidate
{0, 1, 2} unsplit, so the output block is not strongly connected under
retained choices, contradicting the claim. -/
theorem c1_code_behavior_on_failing_input :
    performMaximalEndComponentDecomposition mC1 [0, 1, 2] = some [mecBlockC1] ∧
    0 ∈ mecStates mecBlockC1 ∧ 2 ∈ mecStates mecBlockC1 ∧
    ¬ RetainedReach mC1 mecBlockC1 0 2 := by
  refine ⟨by decide, by decide, by decide, fun h => ?_⟩
  have h2 : (2 : Nat) ∈ ([0, 1] : List Nat) :=
    reflTransGen_invariant retained_steps_stay_in_01 h (by decide)
  exact absurd h2 (by decide)

/-- From state 1, positive-weight steps of mC8 inside {0, 1} stay at 1:
the only stored entry of state 1 has weight 0, hence no positive edge. -/
theorem pos_steps_of_mC8_stay_at_1 (a b : Nat) (ha : a ∈ ([1] : List Nat))
    (hstep : specPosStep mC8 [0, 1] a b) : b ∈ ([1] : List Nat) := by
  have ha2 : a ∈ ([0, 1] : List Nat) := hstep.1
  have hb2 : b ∈ ([0, 1] : List Nat) := hstep.2.1
  revert ha hstep
  fin_cases ha2 <;> fin_cases hb2 <;> decide

/-- C2 counterexample: on mC8 the engine outputs the single block {0, 1},
but under the specification's positive-weight edge semantics state 1
cannot reach state 0 (its only stored entry has weight 0), so {0, 1} is
not a strongly connected component of that graph. -/
theorem c2_counterexample :
    performSccDecomposition mC8 [0, 1] false false = [[0, 1]] ∧
    ¬ SpecPosReach mC8 [0, 1] 1 0 := by
  refine ⟨by decide, fun h => ?_⟩
  have h0 : (0 : Nat) ∈ ([1] : List Nat) :=
    reflTransGen_invariant pos_steps_of_mC8_stay_at_1 h (by decide)
  exact absurd h0 (by decide)

/-- C3: on the failing input mC3 with SCC {0, 1} and statesToCheck
{0, 1}, the inner prune removes state 0 (its only choice leaves the SCC),
but the code rebuilds statesToCheck as the empty set — it walks
transitionMatrix.getRow(0), the forward row of the removed state — whereas
the specification's set of predecessors inside the pruned SCC of the
removed state is {1} (the row of state 1 contains successor 0). -/
theorem c3_code_behavior_on_failing_input :
    pruneStep mC3 [0, 1] [0, 1] = ([1], [], true) ∧
    specStatesToCheck mC3 [1] [0] = [1] := by
  decide

/-- C4 counterexample: the SCC decomposition the MEC engine requests for
the candidate {0, 1} of mC4 is run with dropNaiveSccs = true, so it
returns only the block {1}: state 0 (a trivial SCC without self-loop) is
covered by no block, contradicting the claim that the SCC list covers
every state of the candidate. -/
theorem c4_counterexample :
    mecSccs mC4 [0, 1] = [[1]] ∧ 0 ∈ ([0, 1] : List Nat) ∧
    ∀ B ∈ mecSccs mC4 [0, 1], 0 ∉ B := by
  decide

/-- C5: on the failing input mC5 with onlyBottomSccs set, the engine
outputs the blocks {1} and {2}, but {2} is not a bottom SCC: state 2 has
a successor entry to state 1, which is in the subsystem and outside the
block.  The edge 2 -> 1 is a cross-edge to the SCC {1} closed earlier in
the traversal, which the algorithm never records in
statesThatCanLeaveTheirScc. -/
theorem c5_code_behavior_on_failing_input :
    performSccDecomposition mC5 [0, 1, 2] false true = [[1], [2]] ∧
    ∃ B ∈ performSccDecomposition mC5 [0, 1, 2] false true,
      ∃ s ∈ B, ∃ e ∈ mC5.getRows s, e.1 ∈ ([0, 1, 2] : List Nat) ∧ e.1 ∉ B := by
  decide

/-- C6: on an empty subsystem the MEC engine does not return an empty
decomposition: the initial candidate (the empty block) survives the
fixpoint unchanged and is materialized, so the output consists of exactly
one block, the empty MaximalEndComponent. -/
theorem c6_code_behavior_on_empty_subsystem :
    performMaximalEndComponentDecomposition mC7 [] = some [[]] ∧
    (performMaximalEndComponentDecomposition mC7 []).map List.length = some 1 := by
  decide

/-- C7: on the failing input mC7 with subsystem {0}, state 0 has no
self-choice, yet the output contains the singleton block {0} (with an
empty retained-choice set): the dropNaiveSccs SCC run returns no SCCs, so
mecChanged stays false and the candidate {0} is confirmed instead of being
pruned away. -/
theorem c7_code_behavior_on_failing_input :
    performMaximalEndComponentDecomposition mC7 [0] = some [[(0, [])]] ∧
    ¬ ∃ c ∈ mC7.choiceRange 0, ∀ e ∈ mC7.getRow c, e.1 = 0 := by
  exact ⟨by decide, by decide⟩

/-- C10: both engines are pure functions of their inputs — two runs on
identical inputs (same matrix, same choice-index vector, same subsystem,
same options) produce identical outputs, including block order and
per-state retained choices. -/
theorem c10_determinism (m1 m2 : AbstractModel) (sub1 sub2 : List Nat)
    (dropNaiveSccs onlyBottomSccs : Bool) (hm : m1 = m2) (hsub : sub1 = sub2) :
    performSccDecomposition m1 sub1 dropNaiveSccs onlyBottomSccs =
      performSccDecomposition m2 sub2 dropNaiveSccs onlyBottomSccs ∧
    performMaximalEndComponentDecomposition m1 sub1 =
      performMaximalEndComponentDecomposition m2 sub2 := by
  subst hm; subst hsub; exact ⟨rfl, rfl⟩

/-- Witness for C10 at a concrete input. -/
theorem c10_determinism_witness :
    performSccDecomposition mC1 [0, 1, 2] false false =
      performSccDecomposition mC1 [0, 1, 2] false false ∧
    performMaximalEndComponentDecomposition mC1 [0, 1, 2] =
      performMaximalEndComponentDecomposition mC1 [0, 1, 2] :=
  c10_determinism mC1 mC1 [0, 1, 2] [0, 1, 2] false false rfl rfl

/-- C8 counterexample: the graph the SCC engine traverses contains the
edge 1 -> 0 of mC8 even though the stored entry has weight 0 — the
engine's output on mC8 merges 0 and 1 into one block, which is impossible
under the claimed positive-weight edge semantics. -/
theorem c8_counterexample :
    adjE mC8 1 0 ∧ ¬ specPosEdge mC8 1 0 ∧
    performSccDecomposition mC8 [0, 1] false false = [[0, 1]] := by
  decide

/-- Two models with the same state count, the same choice-index vector and
the same stored successor structure (entry weights may differ
arbitrarily). -/
def sameStructure (m1 m2 : AbstractModel) : Prop :=
  m1.numberOfStates = m2.numberOfStates ∧
  m1.nondeterministicChoiceIndices = m2.nondeterministicChoiceIndices ∧
  m1.transitionMatrix.map (fun row => row.map Prod.fst) =
    m2.transitionMatrix.map (fun row => row.map Prod.fst)

instance (m1 m2 : AbstractModel) : Decidable (sameStructure m1 m2) :=
  inferInstanceAs (Decidable (_ ∧ _ ∧ _))

/-- Structure-equal models have rows with identical successor lists. -/
theorem getRow_map_fst {m1 m2 : AbstractModel} (h : sameStructure m1 m2) (r : Nat) :
    (m1.getRow r).map Prod.fst = (m2.getRow r).map Prod.fst := by
  have h3 := h.2.2
  have key : (m1.transitionMatrix.map (fun row => row.map Prod.fst))[r]? =
      (m2.transitionMatrix.map (fun row => row.map Prod.fst))[r]? := by rw [h3]
  rw [List.getElem?_map, List.getElem?_map] at key
  unfold AbstractModel.getRow
  rw [List.getD_eq_getElem?_getD, List.getD_eq_getElem?_getD]
  cases h1 : m1.transitionMatrix[r]? with
  | none =>
    cases h2 : m2.transitionMatrix[r]? with
    | none => simp
    | some row2 => rw [h1, h2] at key; simp at key
  | some row1 =>
    cases h2 : m2.transitionMatrix[r]? with
    | none => rw [h1, h2] at key; simp at key
    | some row2 => rw [h1, h2] at key; simpa using key

/-- Structure-equal models present identical successor lists to the SCC
engine's traversal. -/
theorem getRows_map_fst {m1 m2 : AbstractModel} (h : sameStructure m1 m2) (s : Nat) :
    (m1.getRows s).map Prod.fst = (m2.getRows s).map Prod.fst := by
  unfold AbstractModel.getRows
  have hrange : m1.choiceRange s = m2.choiceRange s := by
    unfold AbstractModel.choiceRange AbstractModel.choiceIndex
    rw [h.2.1]
  rw [hrange, List.map_flatten, List.map_flatten, List.map_map, List.map_map]
  exact congrArg List.flatten
    (List.map_congr_left (fun c _ => getRow_map_fst h c))

/-- The entries loop depends on an entry only through its successor
component. -/
theorem dfsEntries_congr (subsystem : List Nat) (d b : Bool)
    (rec1 rec2 : Nat → TarjanState → TarjanState)
    (hrec : ∀ x st, rec1 x st = rec2 x st) (v : Nat) :
    ∀ (l1 l2 : List (Nat × Int)), l1.map Prod.fst = l2.map Prod.fst →
      ∀ st, dfsEntries subsystem d b rec1 v l1 st = dfsEntries subsystem d b rec2 v l2 st := by
  intro l1
  induction l1 with
  | nil =>
    intro l2 hmap st
    cases l2 with
    | nil => rfl
    | cons e r => simp at hmap
  | cons e1 r1 ih =>
    intro l2 hmap st
    cases l2 with
    | nil => simp at hmap
    | cons e2 r2 =>
      simp only [List.map_cons, List.cons.injEq] at hmap
      simp only [dfsEntries, hmap.1, hrec]
      exact ih r2 hmap.2 _

/-- The depth-first search depends on the model only through its successor
structure. -/
theorem dfs_congr {m1 m2 : AbstractModel} (h : sameStructure m1 m2)
    (subsystem : List Nat) (d b : Bool) :
    ∀ fuel v st, dfs m1 subsystem d b fuel v st = dfs m2 subsystem d b fuel v st := by
  intro fuel
  induction fuel with
  | zero => intro v st; rfl
  | succ n ih =>
    intro v st
    simp only [dfs]
    rw [dfsEntries_congr subsystem d b _ _ ih v _ _ (getRows_map_fst h v)]

/-- C8 amended: the edge relation the SCC engine traverses holds between s
and t exactly when some choice row of s stores an entry with successor t —
the weight is never examined — and consequently the engine's output is
invariant under arbitrary changes of the stored weights. -/
theorem c8_amended_weights_ignored (m1 m2 : AbstractModel) (h : sameStructure m1 m2)
    (subsystem : List Nat) (d b : Bool) (s t : Nat) :
    (adjE m1 s t ↔ ∃ c ∈ m1.choiceRange s, ∃ e ∈ m1.getRow c, e.1 = t) ∧
    performSccDecomposition m1 subsystem d b = performSccDecomposition m2 subsystem d b := by
  constructor
  · unfold adjE AbstractModel.getRows
    constructor
    · rintro ⟨e, he, rfl⟩
      rw [List.mem_flatten] at he
      obtain ⟨row, hrow, hein⟩ := he
      rw [List.mem_map] at hrow
      obtain ⟨c, hc, rfl⟩ := hrow
      exact ⟨c, hc, e, hein, rfl⟩
    · rintro ⟨c, hc, e, he, rfl⟩
      refine ⟨e, ?_, rfl⟩
      rw [List.mem_flatten]
      exact ⟨m1.getRow c, List.mem_map.mpr ⟨c, hc, rfl⟩, he⟩
  · unfold performSccDecomposition
    have hpoint : ∀ (st : TarjanState) (s : Nat),
        (if st.visitedStates s then st
          else performSccDecompositionHelper m1 subsystem d b s st) =
        (if st.visitedStates s then st
          else performSccDecompositionHelper m2 subsystem d b s st) := by
      intro st s
      by_cases hv : st.visitedStates s = true
      · simp [hv]
      · simp only [hv, if_false]
        unfold performSccDecompositionHelper
        rw [h.1]
        exact dfs_congr h subsystem d b _ _ _
    exact congrArg TarjanState.blocks
      (List.foldl_ext _ _ initialTarjanState (fun a x _ => hpoint a x))

/-- mC8 with all weights replaced (one of them negative): the stored
successor structure is unchanged. -/
def mC8w : AbstractModel := ⟨2, [0, 1, 2], [[(1, 5)], [(0, -3)]]⟩

/-- Witness for C8 amended at the concrete structure-equal pair
(mC8, mC8w). -/
theorem c8_amended_weights_ignored_witness :
    sameStructure mC8 mC8w ∧
    ((adjE mC8 1 0 ↔ ∃ c ∈ mC8.choiceRange 1, ∃ e ∈ mC8.getRow c, e.1 = 0) ∧
      performSccDecomposition mC8 [0, 1] false false =
        performSccDecomposition mC8w [0, 1] false false) :=
  ⟨by decide, c8_amended_weights_ignored mC8 mC8w (by decide) [0, 1] false false 1 0⟩

/-!  Utility lemmas about the container operations. -/

@[simp] theorem fupd_same {α : Type} (f : Nat → α) (i : Nat) (v : α) : fupd f i v i = v := by
  simp [fupd]

theorem fupd_ne {α : Type} (f : Nat → α) (i j : Nat) (v : α) (h : j ≠ i) :
    fupd f i v j = f j := by
  simp [fupd, h]

theorem mem_bvInsert (x y : Nat) (l : List Nat) :
    y ∈ bvInsert x l ↔ y = x ∨ y ∈ l := by
  induction l with
  | nil => simp [bvInsert]
  | cons a as ih =>
    by_cases h1 : x < a
    · simp [bvInsert, h1]
    · by_cases h2 : x = a
      · subst h2
        simp only [bvInsert, h1, if_false, if_pos rfl]
        constructor
        · intro h; exact Or.inr h
        · rintro (rfl | h)
          · exact List.mem_cons_self _ _
          · exact h
      · simp only [bvInsert, h1, if_false, h2, List.mem_cons, ih]
        tauto

theorem bvInsert_sorted (x : Nat) (l : List Nat) (h : l.Chain' (· < ·)) :
    (bvInsert x l).Chain' (· < ·) := by
  induction l with
  | nil => simp [bvInsert]
  | cons a as ih =>
    rw [List.chain'_cons'] at h
    by_cases h1 : x < a
    · simp only [bvInsert, h1, if_true]
      rw [List.chain'_cons]
      exact ⟨h1, List.chain'_cons'.mpr h⟩
    · by_cases h2 : x = a
      · subst h2
        simp only [bvInsert, h1, if_false, if_pos rfl]
        exact List.chain'_cons'.mpr h
      · simp only [bvInsert, h1, if_false, h2, if_false]
        rw [List.chain'_cons']
        refine ⟨?_, ih h.2⟩
        intro y hy
        have hy' : y = x ∨ as.head? = some y := by
          cases as with
          | nil =>
            simp [bvInsert] at hy
            exact Or.inl hy.symm
          | cons b bs =>
            by_cases h3 : x < b
            · simp [bvInsert, h3] at hy
              exact Or.inl hy.symm
            · by_cases h4 : x = b
              · subst h4
                simp only [bvInsert, h3, if_false, if_pos rfl] at hy
                exact Or.inr (by simpa using hy)
              · simp only [bvInsert, h3, if_false, h4, if_false] at hy
                exact Or.inr (by simpa using hy)
        rcases hy' with rfl | hy'
        · omega
        · exact h.1 y hy'

theorem foldl_bvInsert_mem (l acc : List Nat) (y : Nat) :
    y ∈ l.foldl (fun b x => bvInsert x b) acc ↔ y ∈ l ∨ y ∈ acc := by
  induction l generalizing acc with
  | nil => simp
  | cons a as ih =>
    simp only [List.foldl_cons, ih, mem_bvInsert, List.mem_cons]
    tauto

theorem foldl_bvInsert_sorted (l acc : List Nat) (h : acc.Chain' (· < ·)) :
    (l.foldl (fun b x => bvInsert x b) acc).Chain' (· < ·) := by
  induction l generalizing acc with
  | nil => exact h
  | cons a as ih => exact ih _ (bvInsert_sorted a acc h)

theorem foldl_fupd_false_eq (popped : List Nat) (f : Nat → Bool) (y : Nat) :
    popped.foldl (fun g x => fupd g x false) f y = if y ∈ popped then false else f y := by
  induction popped generalizing f with
  | nil => simp
  | cons a as ih =>
    simp only [List.foldl_cons, ih]
    by_cases h1 : y ∈ as
    · simp [h1]
    · by_cases h2 : y = a
      · subst h2
        simp [h1]
      · simp [h1, h2, fupd_ne f a y _ h2]

theorem popUpto_eq (v : Nat) (p s : List Nat) (hp : v ∉ p) :
    popUpto v (p ++ v :: s) = (p ++ [v], s) := by
  induction p with
  | nil => simp [popUpto]
  | cons a as ih =>
    have ha : a ≠ v := fun h => hp (h ▸ List.mem_cons_self a as)
    have hrec := ih (fun h => hp (List.mem_cons_of_mem a h))
    simp only [List.cons_append, popUpto, ha, if_false, List.append_eq, hrec]

/-- Count of subsystem states not yet visited; used as the fuel measure of
the depth-first search. -/
def unvisitedCount (subsystem : List Nat) (st : TarjanState) : Nat :=
  (subsystem.filter (fun x => ! st.visitedStates x)).length

theorem unvisitedCount_le_of_mono (subsystem : List Nat) (st st' : TarjanState)
    (h : ∀ x, st.visitedStates x = true → st'.visitedStates x = true) :
    unvisitedCount subsystem st' ≤ unvisitedCount subsystem st := by
  unfold unvisitedCount
  induction subsystem with
  | nil => simp
  | cons a as ih =>
    simp only [List.filter_cons]
    by_cases h2 : st'.visitedStates a = true
    · by_cases h1 : st.visitedStates a = true
      · simp [h1, h2]; omega
      · simp [h1, h2]; omega
    · have h1 : st.visitedStates a ≠ true := fun hh => h2 (h a hh)
      simp only [Bool.not_eq_true] at h1 h2
      simp [h1, h2]
      omega

theorem unvisitedCount_lt (subsystem : List Nat) (st st' : TarjanState) (v : Nat)
    (hmono : ∀ x, st.visitedStates x = true → st'.visitedStates x = true)
    (hv : v ∈ subsystem) (hnv : st.visitedStates v ≠ true) (hv' : st'.visitedStates v = true) :
    unvisitedCount subsystem st' < unvisitedCount subsystem st := by
  unfold unvisitedCount
  induction subsystem with
  | nil => simp at hv
  | cons a as ih =>
    simp only [List.filter_cons]
    rcases List.mem_cons.mp hv with rfl | hv2
    · simp only [Bool.not_eq_true] at hnv
      simp [hnv, hv']
      have := unvisitedCount_le_of_mono as st st' hmono
      unfold unvisitedCount at this
      omega
    · have hstep := ih hv2
      by_cases h2 : st'.visitedStates a = true
      · by_cases h1 : st.visitedStates a = true
        · simpa [h1, h2] using hstep
        · simp only [Bool.not_eq_true] at h1
          simp [h1, h2]
          omega
      · have h1 : st.visitedStates a ≠ true := fun hh => h2 (hmono a hh)
        simp only [Bool.not_eq_true] at h1 h2
        simpa [h1, h2] using hstep

end storm

namespace storm

/-!  The Tarjan correctness development.  The ghost set D collects the
states whose successor scan has completed within the current root call of
performSccDecompositionHelper. -/

/-- A state is popped: visited and no longer on the Tarjan stack (its SCC
has been closed). -/
def TarjanState.Popped (st : TarjanState) (x : Nat) : Prop :=
  st.visitedStates x = true ∧ x ∉ st.tarjanStack

/-- A stored self-loop entry at x. -/
def selfEntry (m : AbstractModel) (x : Nat) : Prop :=
  ∃ e ∈ m.getRows x, e.1 = x

/-- x forms a trivial SCC within the subsystem: nothing else is mutually
reachable with it. -/
def TrivialScc (m : AbstractModel) (subsystem : List Nat) (x : Nat) : Prop :=
  ∀ t ∈ subsystem, MutualReach m subsystem x t → t = x

/-- The states visited by a search step. -/
def NewStates (st st' : TarjanState) : Set Nat :=
  {x | st'.visitedStates x = true ∧ ¬ st.visitedStates x = true}

/-- The global well-formedness invariant of the Tarjan environment.  D is
the set of states of the current root call whose successor scan has
completed. -/
structure WF (m : AbstractModel) (subsystem : List Nat) (dropN : Bool) (D : Set Nat)
    (st : TarjanState) : Prop where
  stack_nodup : st.tarjanStack.Nodup
  stack_sub : ∀ x ∈ st.tarjanStack, x ∈ subsystem
  stack_visited : ∀ x ∈ st.tarjanStack, st.visitedStates x = true
  stackStates_iff : ∀ x, st.tarjanStackStates x = true ↔ x ∈ st.tarjanStack
  stack_sorted : st.tarjanStack.Chain' (fun a b => st.stateIndices b < st.stateIndices a)
  visited_lt_counter : ∀ x, st.visitedStates x = true → st.stateIndices x < st.currentIndex
  D_visited : ∀ x ∈ D, st.visitedStates x = true
  popped_sub : ∀ x, st.Popped x → x ∈ subsystem
  blocks_popped : ∀ B ∈ st.blocks, ∀ x ∈ B, st.Popped x
  blocks_nonempty : ∀ B ∈ st.blocks, B ≠ []
  blocks_sorted : ∀ B ∈ st.blocks, B.Chain' (· < ·)
  blocks_disjoint : st.blocks.Pairwise (fun B1 B2 => ∀ x, x ∈ B1 → x ∉ B2)
  popped_closed : ∀ x, st.Popped x → ∀ e ∈ m.getRows x, e.1 ∈ subsystem → st.Popped e.1
  blocks_scc : ∀ B ∈ st.blocks, ∀ s ∈ B, ∀ t,
    t ∈ B ↔ (t ∈ subsystem ∧ MutualReach m subsystem s t)
  popped_char : ∀ x, st.Popped x → (∃ B ∈ st.blocks, x ∈ B) ∨
    (dropN = true ∧ TrivialScc m subsystem x ∧ ¬ selfEntry m x)
  lowlink_le : ∀ x ∈ st.tarjanStack, st.lowlinks x ≤ st.stateIndices x
  lowlink_witness : ∀ x ∈ st.tarjanStack, st.lowlinks x < st.stateIndices x →
    ∃ y ∈ st.tarjanStack, st.stateIndices y = st.lowlinks x ∧ Reach m subsystem x y
  D_stack_lowlink : ∀ x ∈ st.tarjanStack, x ∈ D → st.lowlinks x < st.stateIndices x
  D_edges_visited : ∀ x ∈ D, ∀ e ∈ m.getRows x, e.1 ∈ subsystem →
    st.visitedStates e.1 = true
  D_edges_stack : ∀ x ∈ D, ∀ e ∈ m.getRows x, e.1 ∈ subsystem → e.1 ∈ st.tarjanStack →
    st.lowlinks x ≤ st.stateIndices e.1
  selfloop_sound : ∀ x, st.statesWithSelfloop x = true → selfEntry m x
  selfloop_complete : dropN = true → ∀ x ∈ D, selfEntry m x → st.statesWithSelfloop x = true

/-- The postcondition of the recursive depth-first search dfs started at v
on state st. -/
structure DfsPost (m : AbstractModel) (subsystem : List Nat) (dropN : Bool) (D : Set Nat)
    (v : Nat) (st st' : TarjanState) : Prop where
  wf : WF m subsystem dropN (D ∪ NewStates st st') st'
  visited_mono : ∀ x, st.visitedStates x = true → st'.visitedStates x = true
  visited_v : st'.visitedStates v = true
  new_sub : ∀ x ∈ NewStates st st', x ∈ subsystem
  index_frame : ∀ x, st.visitedStates x = true → st'.stateIndices x = st.stateIndices x
  lowlink_frame : ∀ x, st.visitedStates x = true → st'.lowlinks x = st.lowlinks x
  selfloop_frame : ∀ x, x ∉ NewStates st st' → st'.statesWithSelfloop x = st.statesWithSelfloop x
  stack_shape : ∃ pre, st'.tarjanStack = pre ++ st.tarjanStack ∧
    ∀ x ∈ pre, x ∈ NewStates st st'
  blocks_shape : ∃ nb, st'.blocks = st.blocks ++ nb ∧ ∀ B ∈ nb, ∀ x ∈ B, x ∈ NewStates st st'
  counter_ge : st.currentIndex + 1 ≤ st'.currentIndex
  index_v : st'.stateIndices v = st.currentIndex
  new_index_ge : ∀ x ∈ NewStates st st', st.currentIndex ≤ st'.stateIndices x
  reach_new : ∀ x ∈ NewStates st st', Reach m subsystem v x
  lowlink_min : ∀ x ∈ NewStates st st', st'.lowlinks v ≤ st'.lowlinks x
  root_pop : (st'.lowlinks v = st.currentIndex ∧ v ∉ st'.tarjanStack) ∨
    (st'.lowlinks v < st.currentIndex ∧ v ∈ st'.tarjanStack)

/-- The invariant holding while the successor entries of v are scanned:
st0 is the state at entry to dfs (before v is visited) and done the
processed prefix of v's entry list. -/
structure ScanInv (m : AbstractModel) (subsystem : List Nat) (dropN : Bool) (D : Set Nat)
    (v : Nat) (st0 : TarjanState) (done : List (Nat × Int)) (st : TarjanState) : Prop where
  wf : WF m subsystem dropN (D ∪ (NewStates st0 st \ {v})) st
  v_not_D : v ∉ D
  not_old_v : ¬ st0.visitedStates v = true
  visited_mono : ∀ x, st0.visitedStates x = true → st.visitedStates x = true
  visited_v : st.visitedStates v = true
  new_sub : ∀ x ∈ NewStates st0 st, x ∈ subsystem
  index_frame : ∀ x, st0.visitedStates x = true → st.stateIndices x = st0.stateIndices x
  lowlink_frame : ∀ x, st0.visitedStates x = true → st.lowlinks x = st0.lowlinks x
  selfloop_frame : ∀ x, x ∉ NewStates st0 st → st.statesWithSelfloop x = st0.statesWithSelfloop x
  stack_shape : ∃ pre, st.tarjanStack = pre ++ v :: st0.tarjanStack ∧
    ∀ x ∈ pre, x ∈ NewStates st0 st ∧ x ≠ v
  blocks_shape : ∃ nb, st.blocks = st0.blocks ++ nb ∧ ∀ B ∈ nb, ∀ x ∈ B, x ∈ NewStates st0 st
  counter_ge : st0.currentIndex + 1 ≤ st.currentIndex
  index_v : st.stateIndices v = st0.currentIndex
  new_index_ge : ∀ x ∈ NewStates st0 st, st0.currentIndex ≤ st.stateIndices x
  reach_new : ∀ x ∈ NewStates st0 st, Reach m subsystem v x
  lowlink_min_new : ∀ x, x ∈ NewStates st0 st → x ≠ v → st.lowlinks v ≤ st.lowlinks x
  done_visited : ∀ e ∈ done, e.1 ∈ subsystem → st.visitedStates e.1 = true
  done_stack : ∀ e ∈ done, e.1 ∈ subsystem → e.1 ∈ st.tarjanStack →
    st.lowlinks v ≤ st.stateIndices e.1
  selfloop_v : dropN = true → (∃ e ∈ done, e.1 = v) → st.statesWithSelfloop v = true

end storm

namespace storm

theorem reach_refl (m : AbstractModel) (subsystem : List Nat) (x : Nat) :
    Reach m subsystem x x :=
  Relation.ReflTransGen.refl

theorem reach_single {m : AbstractModel} {subsystem : List Nat} {a b : Nat}
    (h : stepR m subsystem a b) : Reach m subsystem a b :=
  Relation.ReflTransGen.single h

theorem reach_trans {m : AbstractModel} {subsystem : List Nat} {a b c : Nat}
    (h1 : Reach m subsystem a b) (h2 : Reach m subsystem b c) : Reach m subsystem a c :=
  Relation.ReflTransGen.trans h1 h2

theorem mem_NewStates {st st' : TarjanState} {x : Nat} :
    x ∈ NewStates st st' ↔ st'.visitedStates x = true ∧ ¬ st.visitedStates x = true :=
  Iff.rfl

theorem chain'_lt_congr (f g : Nat → Nat) (l : List Nat) (h : ∀ x ∈ l, f x = g x)
    (hc : l.Chain' (fun a b => f b < f a)) : l.Chain' (fun a b => g b < g a) := by
  induction l with
  | nil => exact List.chain'_nil
  | cons a as ih =>
    rw [List.chain'_cons'] at hc ⊢
    refine ⟨?_, ih (fun x hx => h x (List.mem_cons_of_mem a hx)) hc.2⟩
    intro y hy
    have hy' : y ∈ as := List.mem_of_mem_head? hy
    rw [← h a (List.mem_cons_self a as), ← h y (List.mem_cons_of_mem a hy')]
    exact hc.1 y hy

theorem Popped_visitState (st0 : TarjanState) (v x : Nat)
    (hv : ¬ st0.visitedStates v = true) :
    (visitState v st0).Popped x ↔ st0.Popped x := by
  unfold TarjanState.Popped visitState
  by_cases hx : x = v
  · subst hx
    simp [hv]
  · simp [fupd_ne _ _ _ _ hx, hx]

theorem NewStates_visitState (st0 : TarjanState) (v : Nat)
    (hv : ¬ st0.visitedStates v = true) :
    NewStates st0 (visitState v st0) = {v} := by
  ext x
  unfold NewStates visitState
  by_cases hx : x = v
  · subst hx
    simp [hv]
  · simp [fupd_ne _ _ _ _ hx, hx]

/-- Entering dfs at an unvisited v establishes the scan invariant with an
empty processed prefix. -/
theorem scanInv_init (m : AbstractModel) (subsystem : List Nat) (dropN : Bool) (D : Set Nat)
    (v : Nat) (st0 : TarjanState) (hwf : WF m subsystem dropN D st0) (hv : v ∈ subsystem)
    (hnv : ¬ st0.visitedStates v = true) (hvD : v ∉ D) :
    ScanInv m subsystem dropN D v st0 [] (visitState v st0) := by
  have hnew : NewStates st0 (visitState v st0) = {v} := NewStates_visitState st0 v hnv
  have hstack_v : v ∉ st0.tarjanStack := fun hmem => hnv (hwf.stack_visited v hmem)
  have hDset : D ∪ (NewStates st0 (visitState v st0) \ {v}) = D := by
    rw [hnew]
    simp
  refine
    { wf := ?wf
      v_not_D := hvD
      not_old_v := hnv
      visited_mono := ?visited_mono
      visited_v := by simp [visitState]
      new_sub := ?new_sub
      index_frame := ?index_frame
      lowlink_frame := ?lowlink_frame
      selfloop_frame := ?selfloop_frame
      stack_shape := ⟨[], by simp [visitState], by simp⟩
      blocks_shape := ⟨[], by simp [visitState], by simp⟩
      counter_ge := by simp [visitState]
      index_v := by simp [visitState]
      new_index_ge := ?new_index_ge
      reach_new := ?reach_new
      lowlink_min_new := ?lowlink_min_new
      done_visited := by simp
      done_stack := by simp
      selfloop_v := by simp }
  case visited_mono =>
    intro x hx
    by_cases hxv : x = v
    · subst hxv; exact absurd hx hnv
    · simpa [visitState, fupd_ne _ _ _ _ hxv] using hx
  case new_sub =>
    intro x hx
    rw [hnew] at hx
    rwa [Set.mem_singleton_iff.mp hx]
  case index_frame =>
    intro x hx
    have hxv : x ≠ v := fun h => hnv (h ▸ hx)
    simp [visitState, fupd_ne _ _ _ _ hxv]
  case lowlink_frame =>
    intro x hx
    have hxv : x ≠ v := fun h => hnv (h ▸ hx)
    simp [visitState, fupd_ne _ _ _ _ hxv]
  case selfloop_frame =>
    intro x _
    simp [visitState]
  case new_index_ge =>
    intro x hx
    rw [hnew] at hx
    rw [Set.mem_singleton_iff.mp hx]
    simp [visitState]
  case reach_new =>
    intro x hx
    rw [hnew] at hx
    rw [Set.mem_singleton_iff.mp hx]
    exact reach_refl m subsystem v
  case lowlink_min_new =>
    intro x hx hxv
    rw [hnew] at hx
    exact absurd (Set.mem_singleton_iff.mp hx) hxv
  case wf =>
    rw [hDset]
    refine
      { stack_nodup := ?stack_nodup
        stack_sub := ?stack_sub
        stack_visited := ?stack_visited
        stackStates_iff := ?stackStates_iff
        stack_sorted := ?stack_sorted
        visited_lt_counter := ?visited_lt_counter
        D_visited := ?D_visited
        popped_sub := ?popped_sub
        blocks_popped := ?blocks_popped
        blocks_nonempty := by simpa [visitState] using hwf.blocks_nonempty
        blocks_sorted := by simpa [visitState] using hwf.blocks_sorted
        blocks_disjoint := by simpa [visitState] using hwf.blocks_disjoint
        popped_closed := ?popped_closed
        blocks_scc := by simpa [visitState] using hwf.blocks_scc
        popped_char := ?popped_char
        lowlink_le := ?lowlink_le
        lowlink_witness := ?lowlink_witness
        D_stack_lowlink := ?D_stack_lowlink
        D_edges_visited := ?D_edges_visited
        D_edges_stack := ?D_edges_stack
        selfloop_sound := by simpa [visitState] using hwf.selfloop_sound
        selfloop_complete := by simpa [visitState] using hwf.selfloop_complete }
    case stack_nodup =>
      simp only [visitState]
      exact List.nodup_cons.mpr ⟨hstack_v, hwf.stack_nodup⟩
    case stack_sub =>
      intro x hx
      rcases List.mem_cons.mp hx with rfl | hx2
      · exact hv
      · exact hwf.stack_sub x hx2
    case stack_visited =>
      intro x hx
      rcases List.mem_cons.mp hx with rfl | hx2
      · simp [visitState]
      · have hxv : x ≠ v := fun h => hstack_v (h ▸ hx2)
        simpa [visitState, fupd_ne _ _ _ _ hxv] using hwf.stack_visited x hx2
    case stackStates_iff =>
      intro x
      by_cases hxv : x = v
      · subst hxv
        simp [visitState]
      · simp only [visitState, fupd_ne _ _ _ _ hxv, List.mem_cons]
        rw [hwf.stackStates_iff x]
        simp [hxv]
    case stack_sorted =>
      simp only [visitState]
      rw [List.chain'_cons']
      constructor
      · intro y hy
        have hy' : y ∈ st0.tarjanStack := List.mem_of_mem_head? hy
        have hyv : y ≠ v := fun h => hstack_v (h ▸ hy')
        rw [fupd_same, fupd_ne _ _ _ _ hyv]
        exact hwf.visited_lt_counter y (hwf.stack_visited y hy')
      · refine chain'_lt_congr st0.stateIndices _ st0.tarjanStack ?_ hwf.stack_sorted
        intro x hx
        have hxv : x ≠ v := fun h => hstack_v (h ▸ hx)
        rw [fupd_ne _ _ _ _ hxv]
    case visited_lt_counter =>
      intro x hx
      by_cases hxv : x = v
      · subst hxv
        simp [visitState]
      · simp only [visitState, fupd_ne _ _ _ _ hxv] at hx ⊢
        exact Nat.lt_succ_of_lt (hwf.visited_lt_counter x hx)
    case D_visited =>
      intro x hx
      have hxv : x ≠ v := fun h => hvD (h ▸ hx)
      simpa [visitState, fupd_ne _ _ _ _ hxv] using hwf.D_visited x hx
    case popped_sub =>
      intro x hx
      exact hwf.popped_sub x ((Popped_visitState st0 v x hnv).mp hx)
    case blocks_popped =>
      intro B hB x hx
      have hB' : B ∈ st0.blocks := by simpa [visitState] using hB
      exact (Popped_visitState st0 v x hnv).mpr (hwf.blocks_popped B hB' x hx)
    case popped_closed =>
      intro x hx e he hesub
      exact (Popped_visitState st0 v _ hnv).mpr
        (hwf.popped_closed x ((Popped_visitState st0 v x hnv).mp hx) e he hesub)
    case popped_char =>
      intro x hx
      rcases hwf.popped_char x ((Popped_visitState st0 v x hnv).mp hx) with h | h
      · left
        obtain ⟨B, hB, hxB⟩ := h
        exact ⟨B, by simpa [visitState] using hB, hxB⟩
      · right
        exact h
    case lowlink_le =>
      intro x hx
      rcases List.mem_cons.mp (by simpa [visitState] using hx) with rfl | hx2
      · simp [visitState]
      · have hxv : x ≠ v := fun h => hstack_v (h ▸ hx2)
        simpa [visitState, fupd_ne _ _ _ _ hxv] using hwf.lowlink_le x hx2
    case lowlink_witness =>
      intro x hx hlt
      rcases List.mem_cons.mp (by simpa [visitState] using hx) with rfl | hx2
      · simp [visitState] at hlt
      · have hxv : x ≠ v := fun h => hstack_v (h ▸ hx2)
        simp only [visitState, fupd_ne _ _ _ _ hxv] at hlt
        obtain ⟨y, hy, hyi, hyr⟩ := hwf.lowlink_witness x hx2 hlt
        have hyv : y ≠ v := fun h => hstack_v (h ▸ hy)
        refine ⟨y, ?_, ?_, hyr⟩
        · simp [visitState, List.mem_cons_of_mem _ hy]
        · simp [visitState, fupd_ne _ _ _ _ hyv, fupd_ne _ _ _ _ hxv, hyi]
    case D_stack_lowlink =>
      intro x hx hxD
      have hxv : x ≠ v := fun h => hvD (h ▸ hxD)
      have hx2 : x ∈ st0.tarjanStack := by
        rcases List.mem_cons.mp (by simpa [visitState] using hx) with rfl | hx2
        · exact absurd rfl hxv
        · exact hx2
      simpa [visitState, fupd_ne _ _ _ _ hxv] using hwf.D_stack_lowlink x hx2 hxD
    case D_edges_visited =>
      intro x hx e he hesub
      have h1 := hwf.D_edges_visited x hx e he hesub
      have hev : e.1 ≠ v := fun h => hnv (h ▸ h1)
      simpa [visitState, fupd_ne _ _ _ _ hev] using h1
    case D_edges_stack =>
      intro x hx e he hesub hestack
      have h1 := hwf.D_edges_visited x hx e he hesub
      have hev : e.1 ≠ v := fun h => hnv (h ▸ h1)
      have hxv : x ≠ v := fun h => hvD (h ▸ hx)
      have he2 : e.1 ∈ st0.tarjanStack := by
        rcases List.mem_cons.mp (by simpa [visitState] using hestack) with h | h
        · exact absurd h hev
        · exact h
      simpa [visitState, fupd_ne _ _ _ _ hev, fupd_ne _ _ _ _ hxv] using
        hwf.D_edges_stack x hx e he hesub he2

end storm

namespace storm

/-- The processing of one successor entry inside dfsEntries (a proof-layer
name for the loop body). -/
def scanBody (subsystem : List Nat) (dropNaiveSccs onlyBottomSccs : Bool)
    (rec : Nat → TarjanState → TarjanState) (currentState : Nat) (e : Nat × Int)
    (st : TarjanState) : TarjanState :=
  let st :=
    if dropNaiveSccs && (currentState == e.1) then
      { st with statesWithSelfloop := fupd st.statesWithSelfloop currentState true }
    else st
  if subsystem.contains e.1 then
    if st.visitedStates e.1 then
      if st.tarjanStackStates e.1 then
        { st with
          lowlinks := fupd st.lowlinks currentState
            (min (st.lowlinks currentState) (st.stateIndices e.1)) }
      else st
    else
      let st1 := rec e.1 st
      let st2 := { st1 with
        lowlinks := fupd st1.lowlinks currentState
          (min (st1.lowlinks currentState) (st1.lowlinks e.1)) }
      if onlyBottomSccs && ! (st2.lowlinks currentState == st2.lowlinks e.1) then
        { st2 with
          statesThatCanLeaveTheirScc := fupd st2.statesThatCanLeaveTheirScc currentState true }
      else st2
  else st

theorem dfsEntries_cons (subsystem : List Nat) (d b : Bool)
    (rec : Nat → TarjanState → TarjanState) (v : Nat) (e : Nat × Int)
    (rest : List (Nat × Int)) (st : TarjanState) :
    dfsEntries subsystem d b rec v (e :: rest) st =
      dfsEntries subsystem d b rec v rest (scanBody subsystem d b rec v e st) :=
  rfl

theorem dfsEntries_nil (subsystem : List Nat) (d b : Bool)
    (rec : Nat → TarjanState → TarjanState) (v : Nat) (st : TarjanState) :
    dfsEntries subsystem d b rec v [] st = st :=
  rfl

end storm

namespace storm

/-- Decreasing the lowlink of a non-completed state v (with a stack
witness for the new value when it is strictly below v's index) preserves
well-formedness. -/
theorem wf_lowlink_update (m : AbstractModel) (subsystem : List Nat) (dropN : Bool)
    (Dset : Set Nat) (st : TarjanState) (hwf : WF m subsystem dropN Dset st) (v newval : Nat)
    (hvD : v ∉ Dset) (hle : newval ≤ st.lowlinks v)
    (hwit : newval < st.stateIndices v → ∃ y ∈ st.tarjanStack,
      st.stateIndices y = newval ∧ Reach m subsystem v y) :
    WF m subsystem dropN Dset { st with lowlinks := fupd st.lowlinks v newval } := by
  refine
    { stack_nodup := hwf.stack_nodup
      stack_sub := hwf.stack_sub
      stack_visited := hwf.stack_visited
      stackStates_iff := hwf.stackStates_iff
      stack_sorted := hwf.stack_sorted
      visited_lt_counter := hwf.visited_lt_counter
      D_visited := hwf.D_visited
      popped_sub := hwf.popped_sub
      blocks_popped := hwf.blocks_popped
      blocks_nonempty := hwf.blocks_nonempty
      blocks_sorted := hwf.blocks_sorted
      blocks_disjoint := hwf.blocks_disjoint
      popped_closed := hwf.popped_closed
      blocks_scc := hwf.blocks_scc
      popped_char := hwf.popped_char
      lowlink_le := ?lowlink_le
      lowlink_witness := ?lowlink_witness
      D_stack_lowlink := ?D_stack_lowlink
      D_edges_visited := hwf.D_edges_visited
      D_edges_stack := ?D_edges_stack
      selfloop_sound := hwf.selfloop_sound
      selfloop_complete := hwf.selfloop_complete }
  case lowlink_le =>
    intro x hx
    by_cases hxv : x = v
    · subst hxv
      simp only [fupd_same]
      exact le_trans hle (hwf.lowlink_le x hx)
    · simpa [fupd_ne _ _ _ _ hxv] using hwf.lowlink_le x hx
  case lowlink_witness =>
    intro x hx hlt
    by_cases hxv : x = v
    · subst hxv
      simp only [fupd_same] at hlt ⊢
      exact hwit hlt
    · simp only [fupd_ne _ _ _ _ hxv] at hlt ⊢
      exact hwf.lowlink_witness x hx hlt
  case D_stack_lowlink =>
    intro x hx hxD
    have hxv : x ≠ v := fun h => hvD (h ▸ hxD)
    simpa [fupd_ne _ _ _ _ hxv] using hwf.D_stack_lowlink x hx hxD
  case D_edges_stack =>
    intro x hx e he hesub hestack
    have hxv : x ≠ v := fun h => hvD (h ▸ hx)
    simpa [fupd_ne _ _ _ _ hxv] using hwf.D_edges_stack x hx e he hesub hestack

/-- Decreasing the lowlink of v (with a stack witness for the new value
when it is strictly below v's index) preserves the scan invariant. -/
theorem scanInv_lowlink_update (m : AbstractModel) (subsystem : List Nat) (dropN : Bool)
    (D : Set Nat) (v : Nat) (st0 : TarjanState) (done : List (Nat × Int)) (st : TarjanState)
    (hInv : ScanInv m subsystem dropN D v st0 done st) (newval : Nat)
    (hle : newval ≤ st.lowlinks v)
    (hwit : newval < st.stateIndices v → ∃ y ∈ st.tarjanStack,
      st.stateIndices y = newval ∧ Reach m subsystem v y) :
    ScanInv m subsystem dropN D v st0 done
      { st with lowlinks := fupd st.lowlinks v newval } := by
  have hv_stack : v ∈ st.tarjanStack := by
    obtain ⟨pre, hpre, _⟩ := hInv.stack_shape
    rw [hpre]
    exact List.mem_append_right pre (List.mem_cons_self v _)
  have hvD : v ∉ D ∪ (NewStates st0 st \ {v}) := by
    intro h
    rcases h with h | h
    · exact hInv.v_not_D h
    · exact h.2 rfl
  have hNew : NewStates st0 { st with lowlinks := fupd st.lowlinks v newval } =
      NewStates st0 st := rfl
  refine
    { wf := ?wf
      v_not_D := hInv.v_not_D
      not_old_v := hInv.not_old_v
      visited_mono := hInv.visited_mono
      visited_v := hInv.visited_v
      new_sub := hInv.new_sub
      index_frame := hInv.index_frame
      lowlink_frame := ?lowlink_frame
      selfloop_frame := hInv.selfloop_frame
      stack_shape := hInv.stack_shape
      blocks_shape := hInv.blocks_shape
      counter_ge := hInv.counter_ge
      index_v := hInv.index_v
      new_index_ge := hInv.new_index_ge
      reach_new := hInv.reach_new
      lowlink_min_new := ?lowlink_min_new
      done_visited := hInv.done_visited
      done_stack := ?done_stack
      selfloop_v := hInv.selfloop_v }
  case lowlink_frame =>
    intro x hx
    have hxv : x ≠ v := fun h => hInv.not_old_v (h ▸ hx)
    simpa [fupd_ne _ _ _ _ hxv] using hInv.lowlink_frame x hx
  case lowlink_min_new =>
    intro x hx hxv
    simp only [fupd_same, fupd_ne _ _ _ _ hxv]
    exact le_trans hle (hInv.lowlink_min_new x hx hxv)
  case done_stack =>
    intro e he hesub hestack
    have hev : e.1 ≠ v ∨ e.1 = v := (ne_or_eq e.1 v)
    rcases hev with hev | hev
    · simp only [fupd_same, fupd_ne _ _ _ _ hev]
      exact le_trans hle (hInv.done_stack e he hesub hestack)
    · rw [hev] at hestack ⊢
      simp only [fupd_same]
      exact le_trans hle (hInv.wf.lowlink_le v hv_stack)
  case wf =>
    exact wf_lowlink_update m subsystem dropN _ st hInv.wf v newval hvD hle hwit

end storm

namespace storm

/-- Visited states accumulate: new states of a two-step search split into
the two steps. -/
theorem NewStates_union (st0 st st1 : TarjanState)
    (h01 : ∀ x, st0.visitedStates x = true → st.visitedStates x = true)
    (h12 : ∀ x, st.visitedStates x = true → st1.visitedStates x = true) :
    NewStates st0 st1 = NewStates st0 st ∪ NewStates st st1 := by
  ext x
  simp only [NewStates, Set.mem_setOf_eq, Set.mem_union]
  constructor
  · rintro ⟨hv1, hnv0⟩
    by_cases hv : st.visitedStates x = true
    · exact Or.inl ⟨hv, hnv0⟩
    · exact Or.inr ⟨hv1, hv⟩
  · rintro (⟨hv, hnv0⟩ | ⟨hv1, hnv⟩)
    · exact ⟨h12 x hv, hnv0⟩
    · exact ⟨hv1, fun h0 => hnv (h01 x h0)⟩

/-- Setting the self-loop bit of v (justified by a stored self-loop entry)
preserves the scan invariant. -/
theorem scanInv_setflag (m : AbstractModel) (subsystem : List Nat) (dropN : Bool)
    (D : Set Nat) (v : Nat) (st0 : TarjanState) (done : List (Nat × Int)) (st : TarjanState)
    (hInv : ScanInv m subsystem dropN D v st0 done st) (hself : selfEntry m v) :
    ScanInv m subsystem dropN D v st0 done
      { st with statesWithSelfloop := fupd st.statesWithSelfloop v true } := by
  have hvNew : v ∈ NewStates st0 st := ⟨hInv.visited_v, hInv.not_old_v⟩
  refine
    { wf := ?wf
      v_not_D := hInv.v_not_D
      not_old_v := hInv.not_old_v
      visited_mono := hInv.visited_mono
      visited_v := hInv.visited_v
      new_sub := hInv.new_sub
      index_frame := hInv.index_frame
      lowlink_frame := hInv.lowlink_frame
      selfloop_frame := ?selfloop_frame
      stack_shape := hInv.stack_shape
      blocks_shape := hInv.blocks_shape
      counter_ge := hInv.counter_ge
      index_v := hInv.index_v
      new_index_ge := hInv.new_index_ge
      reach_new := hInv.reach_new
      lowlink_min_new := hInv.lowlink_min_new
      done_visited := hInv.done_visited
      done_stack := hInv.done_stack
      selfloop_v := fun _ _ => by simp }
  case selfloop_frame =>
    intro x hx
    have hxv : x ≠ v := fun h => hx (h ▸ hvNew)
    simpa [fupd_ne _ _ _ _ hxv] using hInv.selfloop_frame x hx
  case wf =>
    have hwf := hInv.wf
    refine
      { stack_nodup := hwf.stack_nodup
        stack_sub := hwf.stack_sub
        stack_visited := hwf.stack_visited
        stackStates_iff := hwf.stackStates_iff
        stack_sorted := hwf.stack_sorted
        visited_lt_counter := hwf.visited_lt_counter
        D_visited := hwf.D_visited
        popped_sub := hwf.popped_sub
        blocks_popped := hwf.blocks_popped
        blocks_nonempty := hwf.blocks_nonempty
        blocks_sorted := hwf.blocks_sorted
        blocks_disjoint := hwf.blocks_disjoint
        popped_closed := hwf.popped_closed
        blocks_scc := hwf.blocks_scc
        popped_char := hwf.popped_char
        lowlink_le := hwf.lowlink_le
        lowlink_witness := hwf.lowlink_witness
        D_stack_lowlink := hwf.D_stack_lowlink
        D_edges_visited := hwf.D_edges_visited
        D_edges_stack := hwf.D_edges_stack
        selfloop_sound := ?selfloop_sound
        selfloop_complete := ?selfloop_complete }
    case selfloop_sound =>
      intro x hx
      by_cases hxv : x = v
      · subst hxv; exact hself
      · exact hwf.selfloop_sound x (by simpa [fupd_ne _ _ _ _ hxv] using hx)
    case selfloop_complete =>
      intro hd x hxD hx
      by_cases hxv : x = v
      · subst hxv; simp
      · simp only [fupd_ne _ _ _ _ hxv]
        exact hwf.selfloop_complete hd x hxD hx

/-- Appending a processed entry to the done list, given its scan facts. -/
theorem scanInv_extend_done (m : AbstractModel) (subsystem : List Nat) (dropN : Bool)
    (D : Set Nat) (v : Nat) (st0 : TarjanState) (done : List (Nat × Int))
    (e : Nat × Int) (st : TarjanState)
    (hInv : ScanInv m subsystem dropN D v st0 done st)
    (hviz : e.1 ∈ subsystem → st.visitedStates e.1 = true)
    (hstk : e.1 ∈ subsystem → e.1 ∈ st.tarjanStack →
      st.lowlinks v ≤ st.stateIndices e.1)
    (hflag : dropN = true → e.1 = v → st.statesWithSelfloop v = true) :
    ScanInv m subsystem dropN D v st0 (done ++ [e]) st := by
  refine
    { wf := hInv.wf
      v_not_D := hInv.v_not_D
      not_old_v := hInv.not_old_v
      visited_mono := hInv.visited_mono
      visited_v := hInv.visited_v
      new_sub := hInv.new_sub
      index_frame := hInv.index_frame
      lowlink_frame := hInv.lowlink_frame
      selfloop_frame := hInv.selfloop_frame
      stack_shape := hInv.stack_shape
      blocks_shape := hInv.blocks_shape
      counter_ge := hInv.counter_ge
      index_v := hInv.index_v
      new_index_ge := hInv.new_index_ge
      reach_new := hInv.reach_new
      lowlink_min_new := hInv.lowlink_min_new
      done_visited := ?done_visited
      done_stack := ?done_stack
      selfloop_v := ?selfloop_v }
  case done_visited =>
    intro e2 he2 hesub
    rcases List.mem_append.mp he2 with h | h
    · exact hInv.done_visited e2 h hesub
    · rw [List.mem_singleton.mp h] at hesub ⊢
      exact hviz hesub
  case done_stack =>
    intro e2 he2 hesub hestack
    rcases List.mem_append.mp he2 with h | h
    · exact hInv.done_stack e2 h hesub hestack
    · rw [List.mem_singleton.mp h] at hesub hestack ⊢
      exact hstk hesub hestack
  case selfloop_v =>
    intro hd hex
    obtain ⟨e2, he2, he2v⟩ := hex
    rcases List.mem_append.mp he2 with h | h
    · exact hInv.selfloop_v hd ⟨e2, h, he2v⟩
    · rw [List.mem_singleton.mp h] at he2v
      exact hflag hd he2v

end storm

namespace storm

/-- The self-loop recording stage of the entry processing. -/
def scanFlag (dropNaiveSccs : Bool) (currentState : Nat) (e : Nat × Int)
    (st : TarjanState) : TarjanState :=
  if dropNaiveSccs && (currentState == e.1) then
    { st with statesWithSelfloop := fupd st.statesWithSelfloop currentState true }
  else st

theorem scanBody_eq (subsystem : List Nat) (dropN : Bool)
    (rec : Nat → TarjanState → TarjanState) (v : Nat) (e : Nat × Int) (st : TarjanState) :
    scanBody subsystem dropN false rec v e st =
      (let stA := scanFlag dropN v e st
       if subsystem.contains e.1 then
         if stA.visitedStates e.1 then
           if stA.tarjanStackStates e.1 then
             { stA with
               lowlinks := fupd stA.lowlinks v
                 (min (stA.lowlinks v) (stA.stateIndices e.1)) }
           else stA
         else
           let st1 := rec e.1 stA
           { st1 with
             lowlinks := fupd st1.lowlinks v (min (st1.lowlinks v) (st1.lowlinks e.1)) }
       else stA) :=
  rfl

/-- One step of the successor scan preserves the scan invariant. -/
theorem scan_step (m : AbstractModel) (subsystem : List Nat) (dropN : Bool) (D : Set Nat)
    (v : Nat) (st0 : TarjanState) (fuel : Nat)
    (hv : v ∈ subsystem) (hcount : unvisitedCount subsystem st0 < fuel + 1)
    (IH : ∀ (w : Nat) (st : TarjanState) (Dc : Set Nat),
      WF m subsystem dropN Dc st → w ∈ subsystem → ¬ st.visitedStates w = true →
      unvisitedCount subsystem st < fuel →
      DfsPost m subsystem dropN Dc w st (dfs m subsystem dropN false fuel w st))
    (done : List (Nat × Int)) (e : Nat × Int) (he : e ∈ m.getRows v)
    (st : TarjanState) (hInv : ScanInv m subsystem dropN D v st0 done st) :
    ScanInv m subsystem dropN D v st0 (done ++ [e])
      (scanBody subsystem dropN false (dfs m subsystem dropN false fuel) v e st) := by
  rw [scanBody_eq]
  have hInvA : ScanInv m subsystem dropN D v st0 done (scanFlag dropN v e st) := by
    unfold scanFlag
    split
    · next hcond =>
      have hev : e.1 = v := by
        have h2 := (Bool.and_eq_true _ _).mp hcond
        exact (beq_iff_eq.mp h2.2).symm
      exact scanInv_setflag m subsystem dropN D v st0 done st hInv ⟨e, he, hev⟩
    · exact hInv
  have hflagA : dropN = true → e.1 = v →
      (scanFlag dropN v e st).statesWithSelfloop v = true := by
    intro hd hev
    unfold scanFlag
    rw [hd, hev]
    simp
  set stA := scanFlag dropN v e st with hstA_def
  show ScanInv m subsystem dropN D v st0 (done ++ [e])
    (if subsystem.contains e.1 then
      if stA.visitedStates e.1 then
        if stA.tarjanStackStates e.1 then
          { stA with
            lowlinks := fupd stA.lowlinks v (min (stA.lowlinks v) (stA.stateIndices e.1)) }
        else stA
      else
        let st1 := dfs m subsystem dropN false fuel e.1 stA
        { st1 with
          lowlinks := fupd st1.lowlinks v (min (st1.lowlinks v) (st1.lowlinks e.1)) }
    else stA)
  have hv_stackA : v ∈ stA.tarjanStack := by
    obtain ⟨pre, hpre, _⟩ := hInvA.stack_shape
    rw [hpre]
    exact List.mem_append_right _ (List.mem_cons_self _ _)
  by_cases hsub : e.1 ∈ subsystem
  case neg =>
    have hc : ¬ subsystem.contains e.1 = true := by
      simpa using hsub
    rw [if_neg hc]
    exact scanInv_extend_done m subsystem dropN D v st0 done e stA hInvA
      (fun h => absurd h hsub) (fun h _ => absurd h hsub) hflagA
  case pos =>
    have hc : subsystem.contains e.1 = true := by simpa using hsub
    rw [if_pos hc]
    by_cases hviz : stA.visitedStates e.1 = true
    · rw [if_pos hviz]
      by_cases hos : stA.tarjanStackStates e.1 = true
      · rw [if_pos hos]
        have hestack : e.1 ∈ stA.tarjanStack := (hInvA.wf.stackStates_iff e.1).mp hos
        have hupd := scanInv_lowlink_update m subsystem dropN D v st0 done stA hInvA
          (min (stA.lowlinks v) (stA.stateIndices e.1)) (min_le_left _ _) ?wit
        case wit =>
          intro hlt
          rcases le_total (stA.lowlinks v) (stA.stateIndices e.1) with hmin | hmin
          · rw [min_eq_left hmin] at hlt ⊢
            exact hInvA.wf.lowlink_witness v hv_stackA hlt
          · rw [min_eq_right hmin]
            exact ⟨e.1, hestack, rfl, reach_single ⟨hv, hsub, ⟨e, he, rfl⟩⟩⟩
        exact scanInv_extend_done m subsystem dropN D v st0 done e _ hupd
          (fun _ => hviz)
          (fun _ _ => by
            show fupd stA.lowlinks v _ v ≤ stA.stateIndices e.1
            rw [fupd_same]
            exact min_le_right _ _)
          hflagA
      · rw [if_neg hos]
        exact scanInv_extend_done m subsystem dropN D v st0 done e stA hInvA
          (fun _ => hviz)
          (fun _ hmem => absurd ((hInvA.wf.stackStates_iff e.1).mpr hmem) hos)
          hflagA
    · rw [if_neg hviz]
      have hfuel2 : unvisitedCount subsystem stA < fuel := by
        have h1 : unvisitedCount subsystem stA < unvisitedCount subsystem st0 :=
          unvisitedCount_lt subsystem st0 stA v hInvA.visited_mono hv
            hInvA.not_old_v hInvA.visited_v
        omega
      have P := IH e.1 stA (D ∪ (NewStates st0 stA \ {v})) hInvA.wf hsub hviz hfuel2
      set st1 := dfs m subsystem dropN false fuel e.1 stA with hst1_def
      show ScanInv m subsystem dropN D v st0 (done ++ [e])
        { st1 with
          lowlinks := fupd st1.lowlinks v (min (st1.lowlinks v) (st1.lowlinks e.1)) }
      have hvA : stA.visitedStates v = true := hInvA.visited_v
      have hvB : v ∉ NewStates stA st1 := fun h => h.2 hvA
      have he1v : e.1 ≠ v := fun h => hviz (h ▸ hvA)
      have hAB : NewStates st0 st1 = NewStates st0 stA ∪ NewStates stA st1 :=
        NewStates_union st0 stA st1 hInvA.visited_mono P.visited_mono
      have hDset : D ∪ (NewStates st0 st1 \ {v}) =
          (D ∪ (NewStates st0 stA \ {v})) ∪ NewStates stA st1 := by
        rw [hAB, Set.union_diff_distrib, Set.diff_singleton_eq_self hvB,
          ← Set.union_assoc]
      have hstep_ve : stepR m subsystem v e.1 := ⟨hv, hsub, ⟨e, he, rfl⟩⟩
      have hidx_v1 : st1.stateIndices v = st0.currentIndex := by
        rw [P.index_frame v hvA, hInvA.index_v]
      have hlow_v1 : st1.lowlinks v = stA.lowlinks v := P.lowlink_frame v hvA
      -- first the scan invariant at st1 extended by the lowlink update
      have hInv2 : ScanInv m subsystem dropN D v st0 done
          { st1 with
            lowlinks := fupd st1.lowlinks v (min (st1.lowlinks v) (st1.lowlinks e.1)) } := by
        refine
          { wf := ?wf
            v_not_D := hInv.v_not_D
            not_old_v := hInv.not_old_v
            visited_mono := fun x hx => P.visited_mono x (hInvA.visited_mono x hx)
            visited_v := P.visited_mono v hvA
            new_sub := ?new_sub
            index_frame := ?index_frame
            lowlink_frame := ?lowlink_frame
            selfloop_frame := ?selfloop_frame
            stack_shape := ?stack_shape
            blocks_shape := ?blocks_shape
            counter_ge := ?counter_ge
            index_v := ?index_v
            new_index_ge := ?new_index_ge
            reach_new := ?reach_new
            lowlink_min_new := ?lowlink_min_new
            done_visited := ?done_visited
            done_stack := ?done_stack
            selfloop_v := ?selfloop_v }
        case wf =>
          have hwf1 : WF m subsystem dropN (D ∪ (NewStates st0 st1 \ {v})) st1 := by
            rw [hDset]
            exact P.wf
          refine wf_lowlink_update m subsystem dropN _ st1 hwf1 v _ ?hvD
            (min_le_left _ _) ?hwit
          case hvD =>
            rintro (h | h)
            · exact hInv.v_not_D h
            · exact h.2 rfl
          case hwit =>
            intro hlt
            rcases le_total (st1.lowlinks v) (st1.lowlinks e.1) with hmin | hmin
            · rw [min_eq_left hmin] at hlt ⊢
              have hv_stack1 : v ∈ st1.tarjanStack := by
                obtain ⟨pre1, hpre1, _⟩ := P.stack_shape
                rw [hpre1]
                exact List.mem_append_right _ hv_stackA
              exact P.wf.lowlink_witness v hv_stack1 hlt
            · rw [min_eq_right hmin] at hlt ⊢
              rcases P.root_pop with ⟨hpop, _⟩ | ⟨hlt2, hstack1⟩
              · exfalso
                rw [hidx_v1] at hlt
                have := hInvA.counter_ge
                omega
              · have hidx_e1 : st1.stateIndices e.1 = stA.currentIndex := P.index_v
                obtain ⟨y, hy, hyi, hyr⟩ :=
                  P.wf.lowlink_witness e.1 hstack1 (by rw [hidx_e1]; exact hlt2)
                exact ⟨y, hy, hyi, reach_trans (reach_single hstep_ve) hyr⟩
        case new_sub =>
          intro x hx
          rw [show NewStates st0
            { st1 with lowlinks := fupd st1.lowlinks v (min (st1.lowlinks v) (st1.lowlinks e.1)) } =
            NewStates st0 st1 from rfl, hAB] at hx
          rcases hx with hx | hx
          · exact hInvA.new_sub x hx
          · exact P.new_sub x hx
        case index_frame =>
          intro x hx
          show st1.stateIndices x = st0.stateIndices x
          rw [P.index_frame x (hInvA.visited_mono x hx), hInvA.index_frame x hx]
        case lowlink_frame =>
          intro x hx
          have hxv : x ≠ v := fun h => hInv.not_old_v (h ▸ hx)
          show fupd st1.lowlinks v _ x = st0.lowlinks x
          rw [fupd_ne _ _ _ _ hxv, P.lowlink_frame x (hInvA.visited_mono x hx),
            hInvA.lowlink_frame x hx]
        case selfloop_frame =>
          intro x hx
          rw [show NewStates st0
            { st1 with lowlinks := fupd st1.lowlinks v (min (st1.lowlinks v) (st1.lowlinks e.1)) } =
            NewStates st0 st1 from rfl, hAB] at hx
          show st1.statesWithSelfloop x = st0.statesWithSelfloop x
          rw [P.selfloop_frame x (fun h => hx (Or.inr h)),
            hInvA.selfloop_frame x (fun h => hx (Or.inl h))]
        case stack_shape =>
          obtain ⟨pre1, hpre1, hpre1mem⟩ := P.stack_shape
          obtain ⟨preA, hpreA, hpreAmem⟩ := hInvA.stack_shape
          refine ⟨pre1 ++ preA, ?_, ?_⟩
          · show st1.tarjanStack = (pre1 ++ preA) ++ v :: st0.tarjanStack
            rw [hpre1, hpreA, List.append_assoc]
          · intro x hx
            rcases List.mem_append.mp hx with hx | hx
            · have hxB := hpre1mem x hx
              refine ⟨?_, fun h => hvB (h ▸ hxB)⟩
              rw [show NewStates st0
                { st1 with lowlinks := fupd st1.lowlinks v (min (st1.lowlinks v) (st1.lowlinks e.1)) } =
                NewStates st0 st1 from rfl, hAB]
              exact Or.inr hxB
            · obtain ⟨hxA, hxv⟩ := hpreAmem x hx
              refine ⟨?_, hxv⟩
              rw [show NewStates st0
                { st1 with lowlinks := fupd st1.lowlinks v (min (st1.lowlinks v) (st1.lowlinks e.1)) } =
                NewStates st0 st1 from rfl, hAB]
              exact Or.inl hxA
        case blocks_shape =>
          obtain ⟨nb1, hnb1, hnb1mem⟩ := P.blocks_shape
          obtain ⟨nbA, hnbA, hnbAmem⟩ := hInvA.blocks_shape
          refine ⟨nbA ++ nb1, ?_, ?_⟩
          · show st1.blocks = st0.blocks ++ (nbA ++ nb1)
            rw [hnb1, hnbA, List.append_assoc]
          · intro B hB x hx
            rw [show NewStates st0
              { st1 with lowlinks := fupd st1.lowlinks v (min (st1.lowlinks v) (st1.lowlinks e.1)) } =
              NewStates st0 st1 from rfl, hAB]
            rcases List.mem_append.mp hB with hB | hB
            · exact Or.inl (hnbAmem B hB x hx)
            · exact Or.inr (hnb1mem B hB x hx)
        case counter_ge =>
          show st0.currentIndex + 1 ≤ st1.currentIndex
          have h1 := hInvA.counter_ge
          have h2 := P.counter_ge
          omega
        case index_v =>
          show st1.stateIndices v = st0.currentIndex
          exact hidx_v1
        case new_index_ge =>
          intro x hx
          rw [show NewStates st0
            { st1 with lowlinks := fupd st1.lowlinks v (min (st1.lowlinks v) (st1.lowlinks e.1)) } =
            NewStates st0 st1 from rfl, hAB] at hx
          show st0.currentIndex ≤ st1.stateIndices x
          rcases hx with hx | hx
          · rw [P.index_frame x hx.1]
            exact hInvA.new_index_ge x hx
          · have h1 := P.new_index_ge x hx
            have h2 := hInvA.counter_ge
            omega
        case reach_new =>
          intro x hx
          rw [show NewStates st0
            { st1 with lowlinks := fupd st1.lowlinks v (min (st1.lowlinks v) (st1.lowlinks e.1)) } =
            NewStates st0 st1 from rfl, hAB] at hx
          rcases hx with hx | hx
          · exact hInvA.reach_new x hx
          · exact reach_trans (reach_single hstep_ve) (P.reach_new x hx)
        case lowlink_min_new =>
          intro x hx hxv
          rw [show NewStates st0
            { st1 with lowlinks := fupd st1.lowlinks v (min (st1.lowlinks v) (st1.lowlinks e.1)) } =
            NewStates st0 st1 from rfl, hAB] at hx
          show fupd st1.lowlinks v (min (st1.lowlinks v) (st1.lowlinks e.1)) v ≤
            fupd st1.lowlinks v (min (st1.lowlinks v) (st1.lowlinks e.1)) x
          rw [fupd_same, fupd_ne _ _ _ _ hxv]
          rcases hx with hx | hx
          · have h1 : st1.lowlinks x = stA.lowlinks x := P.lowlink_frame x hx.1
            have h2 := hInvA.lowlink_min_new x hx hxv
            have h3 := min_le_left (st1.lowlinks v) (st1.lowlinks e.1)
            rw [hlow_v1] at h3
            omega
          · have h1 := P.lowlink_min x hx
            have h3 := min_le_right (st1.lowlinks v) (st1.lowlinks e.1)
            omega
        case done_visited =>
          intro e2 he2 hesub2
          exact P.visited_mono _ (hInvA.done_visited e2 he2 hesub2)
        case done_stack =>
          intro e2 he2 hesub2 hestack2
          have hviz2 : stA.visitedStates e2.1 = true := hInvA.done_visited e2 he2 hesub2
          have hestackA : e2.1 ∈ stA.tarjanStack := by
            obtain ⟨pre1, hpre1, hpre1mem⟩ := P.stack_shape
            have hestack2' : e2.1 ∈ st1.tarjanStack := hestack2
            rw [hpre1] at hestack2'
            rcases List.mem_append.mp hestack2' with h | h
            · exact absurd hviz2 (hpre1mem _ h).2
            · exact h
          have hbound := hInvA.done_stack e2 he2 hesub2 hestackA
          show fupd st1.lowlinks v (min (st1.lowlinks v) (st1.lowlinks e.1)) v ≤
            st1.stateIndices e2.1
          rw [fupd_same, P.index_frame e2.1 hviz2]
          have h1 := min_le_left (st1.lowlinks v) (st1.lowlinks e.1)
          rw [hlow_v1] at h1
          omega
        case selfloop_v =>
          intro hd hex
          show st1.statesWithSelfloop v = true
          rw [P.selfloop_frame v hvB]
          exact hInvA.selfloop_v hd hex
      exact scanInv_extend_done m subsystem dropN D v st0 done e _ hInv2
        (fun _ => P.visited_v)
        (fun _ hmem => by
          show fupd st1.lowlinks v (min (st1.lowlinks v) (st1.lowlinks e.1)) v ≤
            st1.stateIndices e.1
          rw [fupd_same]
          have hstk1 : e.1 ∈ st1.tarjanStack := hmem
          have h1 := P.wf.lowlink_le e.1 hstk1
          have h2 := min_le_right (st1.lowlinks v) (st1.lowlinks e.1)
          omega)
        (fun hd hev => absurd hev he1v)

end storm

namespace storm

/-- Scanning all remaining entries extends the processed prefix to the full
entry list. -/
theorem dfsEntries_spec (m : AbstractModel) (subsystem : List Nat) (dropN : Bool)
    (D : Set Nat) (v : Nat) (st0 : TarjanState) (fuel : Nat)
    (hv : v ∈ subsystem) (hcount : unvisitedCount subsystem st0 < fuel + 1)
    (IH : ∀ (w : Nat) (st : TarjanState) (Dc : Set Nat),
      WF m subsystem dropN Dc st → w ∈ subsystem → ¬ st.visitedStates w = true →
      unvisitedCount subsystem st < fuel →
      DfsPost m subsystem dropN Dc w st (dfs m subsystem dropN false fuel w st)) :
    ∀ (remaining done : List (Nat × Int)) (st : TarjanState),
      done ++ remaining = m.getRows v →
      ScanInv m subsystem dropN D v st0 done st →
      ScanInv m subsystem dropN D v st0 (m.getRows v)
        (dfsEntries subsystem dropN false (dfs m subsystem dropN false fuel) v remaining st) := by
  intro remaining
  induction remaining with
  | nil =>
    intro done st hsplit hInv
    rw [dfsEntries_nil]
    rw [List.append_nil] at hsplit
    exact hsplit ▸ hInv
  | cons e rest ih =>
    intro done st hsplit hInv
    rw [dfsEntries_cons]
    have he : e ∈ m.getRows v := by
      rw [← hsplit]
      exact List.mem_append_right done (List.mem_cons_self e rest)
    exact ih (done ++ [e]) _ (by rw [← hsplit, List.append_assoc]; rfl)
      (scan_step m subsystem dropN D v st0 fuel hv hcount IH done e he st hInv)

/-- When the scan finishes without closing (lowlink below index), v stays
on the stack and the postcondition holds. -/
theorem dfsPost_noclose (m : AbstractModel) (subsystem : List Nat) (dropN : Bool)
    (D : Set Nat) (v : Nat) (st0 : TarjanState) (stS : TarjanState)
    (hInv : ScanInv m subsystem dropN D v st0 (m.getRows v) stS)
    (hne : ¬ stS.lowlinks v = stS.stateIndices v) :
    DfsPost m subsystem dropN D v st0 stS := by
  obtain ⟨pre, hstack, hpremem⟩ := hInv.stack_shape
  have hv_stack : v ∈ stS.tarjanStack := by
    rw [hstack]; exact List.mem_append_right _ (List.mem_cons_self _ _)
  have hvNew : v ∈ NewStates st0 stS := ⟨hInv.visited_v, hInv.not_old_v⟩
  have hlow_lt : stS.lowlinks v < stS.stateIndices v :=
    lt_of_le_of_ne (hInv.wf.lowlink_le v hv_stack) hne
  have hsetsplit : ∀ x, x ∈ (D ∪ NewStates st0 stS) →
      x = v ∨ x ∈ (D ∪ (NewStates st0 stS \ {v})) := by
    intro x hx
    by_cases hxv : x = v
    · exact Or.inl hxv
    · rcases hx with hx | hx
      · exact Or.inr (Or.inl hx)
      · exact Or.inr (Or.inr ⟨hx, hxv⟩)
  refine
    { wf := ?wf
      visited_mono := hInv.visited_mono
      visited_v := hInv.visited_v
      new_sub := hInv.new_sub
      index_frame := hInv.index_frame
      lowlink_frame := hInv.lowlink_frame
      selfloop_frame := hInv.selfloop_frame
      stack_shape := ⟨pre ++ [v], by rw [hstack, List.append_assoc]; rfl, ?stackmem⟩
      blocks_shape := hInv.blocks_shape
      counter_ge := hInv.counter_ge
      index_v := hInv.index_v
      new_index_ge := hInv.new_index_ge
      reach_new := hInv.reach_new
      lowlink_min := ?lowlink_min
      root_pop := Or.inr ⟨by rw [← hInv.index_v]; exact hlow_lt, hv_stack⟩ }
  case stackmem =>
    intro x hx
    rcases List.mem_append.mp hx with hx | hx
    · exact (hpremem x hx).1
    · rw [List.mem_singleton.mp hx]
      exact hvNew
  case lowlink_min =>
    intro x hx
    by_cases hxv : x = v
    · rw [hxv]
    · exact hInv.lowlink_min_new x hx hxv
  case wf =>
    have hwf := hInv.wf
    refine
      { stack_nodup := hwf.stack_nodup
        stack_sub := hwf.stack_sub
        stack_visited := hwf.stack_visited
        stackStates_iff := hwf.stackStates_iff
        stack_sorted := hwf.stack_sorted
        visited_lt_counter := hwf.visited_lt_counter
        D_visited := ?D_visited
        popped_sub := hwf.popped_sub
        blocks_popped := hwf.blocks_popped
        blocks_nonempty := hwf.blocks_nonempty
        blocks_sorted := hwf.blocks_sorted
        blocks_disjoint := hwf.blocks_disjoint
        popped_closed := hwf.popped_closed
        blocks_scc := hwf.blocks_scc
        popped_char := hwf.popped_char
        lowlink_le := hwf.lowlink_le
        lowlink_witness := hwf.lowlink_witness
        D_stack_lowlink := ?D_stack_lowlink
        D_edges_visited := ?D_edges_visited
        D_edges_stack := ?D_edges_stack
        selfloop_sound := hwf.selfloop_sound
        selfloop_complete := ?selfloop_complete }
    case D_visited =>
      intro x hx
      rcases hsetsplit x hx with rfl | hx2
      · exact hInv.visited_v
      · exact hwf.D_visited x hx2
    case D_stack_lowlink =>
      intro x hx hxD
      rcases hsetsplit x hxD with rfl | hx2
      · exact hlow_lt
      · exact hwf.D_stack_lowlink x hx hx2
    case D_edges_visited =>
      intro x hx e he hesub
      rcases hsetsplit x hx with rfl | hx2
      · exact hInv.done_visited e he hesub
      · exact hwf.D_edges_visited x hx2 e he hesub
    case D_edges_stack =>
      intro x hx e he hesub hestack
      rcases hsetsplit x hx with rfl | hx2
      · exact hInv.done_stack e he hesub hestack
      · exact hwf.D_edges_stack x hx2 e he hesub hestack
    case selfloop_complete =>
      intro hd x hx hse
      rcases hsetsplit x hx with rfl | hx2
      · obtain ⟨e, he, he1⟩ := hse
        exact hInv.selfloop_v hd ⟨e, he, he1⟩
      · exact hwf.selfloop_complete hd x hx2 hse

end storm

namespace storm

theorem closeScc_eq (d b : Bool) (v : Nat) (st : TarjanState) :
    closeScc d b v st =
      { st with
        tarjanStack := (popUpto v st.tarjanStack).2
        tarjanStackStates :=
          (popUpto v st.tarjanStack).1.foldl (fun f x => fupd f x false) st.tarjanStackStates
        blocks :=
          if (((! d) ||
              (decide (1 < ((popUpto v st.tarjanStack).1.foldl
                  (fun b2 x => bvInsert x b2) []).length) ||
                st.statesWithSelfloop (((popUpto v st.tarjanStack).1.foldl
                  (fun b2 x => bvInsert x b2) []).headD 0))) &&
            ((! b) ||
              (popUpto v st.tarjanStack).1.all (fun x => ! st.statesThatCanLeaveTheirScc x)))
          then st.blocks ++ [(popUpto v st.tarjanStack).1.foldl (fun b2 x => bvInsert x b2) []]
          else st.blocks } :=
  rfl

/-- When the scan finishes with lowlink v = index v, the close step pops
exactly the strongly connected component of v and the postcondition holds. -/
theorem dfsPost_close (m : AbstractModel) (subsystem : List Nat) (dropN : Bool)
    (D : Set Nat) (v : Nat) (st0 : TarjanState) (stS : TarjanState)
    (hv : v ∈ subsystem)
    (hInv : ScanInv m subsystem dropN D v st0 (m.getRows v) stS)
    (hroot : stS.lowlinks v = stS.stateIndices v) :
    DfsPost m subsystem dropN D v st0 (closeScc dropN false v stS) := by
  obtain ⟨pre, hstack, hpremem⟩ := hInv.stack_shape
  have hwf := hInv.wf
  have hv_stack : v ∈ stS.tarjanStack := by
    rw [hstack]; exact List.mem_append_right _ (List.mem_cons_self _ _)
  have hvNew : v ∈ NewStates st0 stS := ⟨hInv.visited_v, hInv.not_old_v⟩
  have hvpre : v ∉ pre := fun h => (hpremem v h).2 rfl
  have hnodup : (pre ++ v :: st0.tarjanStack).Nodup := hstack ▸ hwf.stack_nodup
  have hvbase : v ∉ st0.tarjanStack := by
    have := List.nodup_append.mp hnodup
    exact List.nodup_cons.mp this.2.1 |>.1
  have hpop : popUpto v stS.tarjanStack = (pre ++ [v], st0.tarjanStack) := by
    rw [hstack]
    exact popUpto_eq v pre st0.tarjanStack hvpre
  have hmemstack : ∀ x, x ∈ stS.tarjanStack ↔ (x ∈ pre ++ [v] ∨ x ∈ st0.tarjanStack) := by
    intro x
    rw [hstack]
    simp only [List.mem_append, List.mem_cons, List.mem_singleton]
    tauto
  have hUstack : ∀ x ∈ pre ++ [v], x ∈ stS.tarjanStack := by
    intro x hx
    exact (hmemstack x).mpr (Or.inl hx)
  have hUNew : ∀ x ∈ pre ++ [v], x ∈ NewStates st0 stS := by
    intro x hx
    rcases List.mem_append.mp hx with h | h
    · exact (hpremem x h).1
    · rw [List.mem_singleton.mp h]; exact hvNew
  have hUsub : ∀ x ∈ pre ++ [v], x ∈ subsystem := fun x hx => hwf.stack_sub x (hUstack x hx)
  have hUvisited : ∀ x ∈ pre ++ [v], stS.visitedStates x = true :=
    fun x hx => hwf.stack_visited x (hUstack x hx)
  haveI : IsTrans Nat (fun a b => stS.stateIndices b < stS.stateIndices a) :=
    ⟨fun a b c h1 h2 => lt_trans h2 h1⟩
  have hpw : (pre ++ v :: st0.tarjanStack).Pairwise
      (fun a b => stS.stateIndices b < stS.stateIndices a) := by
    rw [← List.chain'_iff_pairwise]
    exact hstack ▸ hwf.stack_sorted
  have hidx_pre : ∀ x ∈ pre, stS.stateIndices v < stS.stateIndices x := by
    intro x hx
    exact (List.pairwise_append.mp hpw).2.2 x hx v (List.mem_cons_self v _)
  have hidx_base : ∀ x ∈ st0.tarjanStack, stS.stateIndices x < stS.stateIndices v := by
    intro x hx
    exact List.rel_of_pairwise_cons (List.pairwise_append.mp hpw).2.1 hx
  have hUbase_disj : ∀ x ∈ pre ++ [v], x ∉ st0.tarjanStack := by
    intro x hx hxb
    rcases List.mem_append.mp hx with h | h
    · have h1 := hidx_pre x h
      have h2 := hidx_base x hxb
      omega
    · rw [List.mem_singleton.mp h] at hxb
      exact hvbase hxb
  have hDmem : ∀ x ∈ pre, x ∈ D ∪ (NewStates st0 stS \ {v}) := by
    intro x hx
    exact Or.inr ⟨(hpremem x hx).1, (hpremem x hx).2⟩
  have hU_lowmin : ∀ x ∈ pre ++ [v], stS.lowlinks v ≤ stS.lowlinks x := by
    intro x hx
    rcases List.mem_append.mp hx with h | h
    · exact hInv.lowlink_min_new x (hpremem x h).1 (hpremem x h).2
    · rw [List.mem_singleton.mp h]
  have hU_edges_visited : ∀ x ∈ pre ++ [v], ∀ e ∈ m.getRows x, e.1 ∈ subsystem →
      stS.visitedStates e.1 = true := by
    intro x hx e he hesub
    rcases List.mem_append.mp hx with h | h
    · exact hwf.D_edges_visited x (hDmem x h) e he hesub
    · rw [List.mem_singleton.mp h] at he
      exact hInv.done_visited e he hesub
  have hU_edges_stack : ∀ x ∈ pre ++ [v], ∀ e ∈ m.getRows x, e.1 ∈ subsystem →
      e.1 ∈ stS.tarjanStack → stS.lowlinks v ≤ stS.stateIndices e.1 := by
    intro x hx e he hesub hestk
    rcases List.mem_append.mp hx with h | h
    · exact le_trans (hU_lowmin x hx) (hwf.D_edges_stack x (hDmem x h) e he hesub hestk)
    · rw [List.mem_singleton.mp h] at he
      exact hInv.done_stack e he hesub hestk
  have f8 : ∀ x ∈ pre ++ [v], ∀ e ∈ m.getRows x, e.1 ∈ subsystem →
      (e.1 ∈ pre ++ [v] ∨ stS.Popped e.1) := by
    intro x hx e he hesub
    have hviz := hU_edges_visited x hx e he hesub
    by_cases hstk : e.1 ∈ stS.tarjanStack
    · rcases (hmemstack e.1).mp hstk with h | h
      · exact Or.inl h
      · exfalso
        have h1 := hU_edges_stack x hx e he hesub hstk
        have h2 := hidx_base e.1 h
        omega
    · exact Or.inr ⟨hviz, hstk⟩
  have f5aux : ∀ n, ∀ w ∈ pre ++ [v], stS.stateIndices w < n →
      Reach m subsystem w v := by
    intro n
    induction n with
    | zero => intro w _ h; omega
    | succ k ihn =>
      intro w hw hlt
      rcases List.mem_append.mp hw with hwpre | hwv
      · have hwNew := (hpremem w hwpre).1
        have hwne := (hpremem w hwpre).2
        have hwstack : w ∈ stS.tarjanStack := hUstack w hw
        have hlow : stS.lowlinks w < stS.stateIndices w :=
          hwf.D_stack_lowlink w hwstack (hDmem w hwpre)
        obtain ⟨y, hy, hyi, hyr⟩ := hwf.lowlink_witness w hwstack hlow
        have hvw : stS.lowlinks v ≤ stS.lowlinks w := hInv.lowlink_min_new w hwNew hwne
        have hyU : y ∈ pre ++ [v] := by
          rcases (hmemstack y).mp hy with h | h
          · exact h
          · exfalso
            have := hidx_base y h
            omega
        by_cases hyv : y = v
        · rw [hyv] at hyr
          exact hyr
        · refine reach_trans hyr (ihn y hyU ?_)
          omega
      · rw [List.mem_singleton.mp hwv]
        exact reach_refl m subsystem v
  have f5 : ∀ w ∈ pre ++ [v], Reach m subsystem w v := by
    intro w hw
    exact f5aux (stS.stateIndices w + 1) w hw (Nat.lt_succ_self _)
  have hreach_vU : ∀ x ∈ pre ++ [v], Reach m subsystem v x := by
    intro x hx
    rcases List.mem_append.mp hx with h | h
    · exact hInv.reach_new x (hpremem x h).1
    · rw [List.mem_singleton.mp h]
      exact reach_refl m subsystem v
  have hpopstep : ∀ a b, stS.Popped a → stepR m subsystem a b → stS.Popped b := by
    intro a b hPa hstep
    obtain ⟨_, hbsub, e, he, he1⟩ := hstep
    exact he1 ▸ hwf.popped_closed a hPa e he (he1.symm ▸ hbsub)
  have f6a : ∀ b c, b ∈ pre ++ [v] → stepR m subsystem b c →
      Reach m subsystem c v → c ∈ pre ++ [v] := by
    intro b c hbU hstep hcv
    obtain ⟨hbsub, hcsub, e, he, he1⟩ := hstep
    have h8 := f8 b hbU e he (he1.symm ▸ hcsub)
    rw [he1] at h8
    rcases h8 with h | h
    · exact h
    · exfalso
      have hPv : stS.Popped v := reflTransGen_invariant hpopstep hcv h
      exact hPv.2 hv_stack
  have f6b : ∀ t, Reach m subsystem v t → Reach m subsystem t v → t ∈ pre ++ [v] := by
    intro t hvt
    induction hvt with
    | refl =>
      intro _
      exact List.mem_append_right pre (List.mem_singleton.mpr rfl)
    | tail hab hbc ih =>
      intro hcv
      have hbv := reach_trans (reach_single hbc) hcv
      exact f6a _ _ (ih hbv) hbc hcv
  have f6 : ∀ t, t ∈ pre ++ [v] ↔
      (t ∈ subsystem ∧ MutualReach m subsystem v t) := by
    intro t
    constructor
    · intro ht
      exact ⟨hUsub t ht, hreach_vU t ht, f5 t ht⟩
    · rintro ⟨htsub, hvt, htv⟩
      exact f6b t hvt htv
  -- the closed state
  rw [closeScc_eq, hpop]
  simp only [Bool.not_false, Bool.true_or, Bool.and_true]
  set sccL : List Nat := (pre ++ [v]).foldl (fun b2 x => bvInsert x b2) [] with hsccL
  have hmem_scc : ∀ y, y ∈ sccL ↔ y ∈ pre ++ [v] := by
    intro y
    rw [hsccL, foldl_bvInsert_mem]
    simp
  have hsorted_scc : sccL.Chain' (· < ·) := foldl_bvInsert_sorted _ [] List.chain'_nil
  have hv_scc : v ∈ sccL := (hmem_scc v).mpr (List.mem_append_right pre (List.mem_singleton.mpr rfl))
  have hscc_ne : sccL ≠ [] := List.ne_nil_of_mem hv_scc
  set keepb : Bool :=
    ((! dropN) || (decide (1 < sccL.length) || stS.statesWithSelfloop (sccL.headD 0)))
    with hkeepb
  set flags2 : Nat → Bool :=
    (pre ++ [v]).foldl (fun f x => fupd f x false) stS.tarjanStackStates with hflags2
  have hflags2eq : ∀ y, flags2 y = if y ∈ pre ++ [v] then false else stS.tarjanStackStates y :=
    fun y => foldl_fupd_false_eq (pre ++ [v]) stS.tarjanStackStates y
  set blocks2 : List (List Nat) := if keepb then stS.blocks ++ [sccL] else stS.blocks
    with hblocks2
  have hblocks2_sup : ∀ B ∈ stS.blocks, B ∈ blocks2 := by
    intro B hB
    rw [hblocks2]
    split
    · exact List.mem_append_left _ hB
    · exact hB
  have hblocks2_cases : ∀ B ∈ blocks2, B ∈ stS.blocks ∨ (keepb = true ∧ B = sccL) := by
    intro B hB
    rw [hblocks2] at hB
    by_cases hk : keepb = true
    · rw [if_pos hk] at hB
      rcases List.mem_append.mp hB with h | h
      · exact Or.inl h
      · exact Or.inr ⟨hk, List.mem_singleton.mp h⟩
    · rw [if_neg hk] at hB
      exact Or.inl hB
  set stC : TarjanState :=
    { stS with
      tarjanStack := st0.tarjanStack
      tarjanStackStates := flags2
      blocks := blocks2 } with hstC
  show DfsPost m subsystem dropN D v st0 stC
  have hNewC : NewStates st0 stC = NewStates st0 stS := rfl
  have hPopC : ∀ x, stC.Popped x ↔ (stS.Popped x ∨ x ∈ pre ++ [v]) := by
    intro x
    show (stS.visitedStates x = true ∧ x ∉ st0.tarjanStack) ↔ _
    constructor
    · rintro ⟨hviz, hnb⟩
      by_cases hstk : x ∈ stS.tarjanStack
      · rcases (hmemstack x).mp hstk with h | h
        · exact Or.inr h
        · exact absurd h hnb
      · exact Or.inl ⟨hviz, hstk⟩
    · rintro (⟨hviz, hstk⟩ | hU)
      · exact ⟨hviz, fun hb => hstk ((hmemstack x).mpr (Or.inr hb))⟩
      · exact ⟨hUvisited x hU, hUbase_disj x hU⟩
  have hbase_sorted : st0.tarjanStack.Chain'
      (fun a b => stS.stateIndices b < stS.stateIndices a) := by
    have h1 := hstack ▸ hwf.stack_sorted
    have h2 := (List.chain'_append.mp h1).2.1
    exact (List.chain'_cons'.mp h2).2
  have hsetsplit : ∀ x, x ∈ (D ∪ NewStates st0 stS) →
      x = v ∨ x ∈ (D ∪ (NewStates st0 stS \ {v})) := by
    intro x hx
    by_cases hxv : x = v
    · exact Or.inl hxv
    · rcases hx with hx | hx
      · exact Or.inr (Or.inl hx)
      · exact Or.inr (Or.inr ⟨hx, hxv⟩)
  have hscc_blockfact : ∀ s ∈ sccL, ∀ t, t ∈ sccL ↔
      (t ∈ subsystem ∧ MutualReach m subsystem s t) := by
    intro s hs t
    have hsU := (hmem_scc s).mp hs
    have hsv : MutualReach m subsystem v s := ⟨hreach_vU s hsU, f5 s hsU⟩
    rw [hmem_scc, f6]
    constructor
    · rintro ⟨htsub, hvt, htv⟩
      exact ⟨htsub, reach_trans hsv.2 hvt, reach_trans htv hsv.1⟩
    · rintro ⟨htsub, hst, hts⟩
      exact ⟨htsub, reach_trans hsv.1 hst, reach_trans hts hsv.2⟩
  refine
    { wf := ?wf
      visited_mono := hInv.visited_mono
      visited_v := hInv.visited_v
      new_sub := hInv.new_sub
      index_frame := hInv.index_frame
      lowlink_frame := hInv.lowlink_frame
      selfloop_frame := hInv.selfloop_frame
      stack_shape := ⟨[], by simp, by simp⟩
      blocks_shape := ?blocks_shape
      counter_ge := hInv.counter_ge
      index_v := hInv.index_v
      new_index_ge := hInv.new_index_ge
      reach_new := hInv.reach_new
      lowlink_min := ?lowlink_min
      root_pop := Or.inl ⟨by rw [← hInv.index_v]; exact hroot, hvbase⟩ }
  case blocks_shape =>
    obtain ⟨nb, hnb, hnbmem⟩ := hInv.blocks_shape
    show ∃ nb2, blocks2 = st0.blocks ++ nb2 ∧ ∀ B ∈ nb2, ∀ x ∈ B, x ∈ NewStates st0 stC
    rw [hblocks2]
    split
    · refine ⟨nb ++ [sccL], by rw [hnb, List.append_assoc], ?_⟩
      intro B hB x hx
      rcases List.mem_append.mp hB with h | h
      · exact hnbmem B h x hx
      · rw [List.mem_singleton.mp h] at hx
        exact hUNew x ((hmem_scc x).mp hx)
    · exact ⟨nb, hnb, hnbmem⟩
  case lowlink_min =>
    intro x hx
    by_cases hxv : x = v
    · rw [hxv]
    · exact hInv.lowlink_min_new x hx hxv
  case wf =>
    refine
      { stack_nodup := ?stack_nodup
        stack_sub := ?stack_sub
        stack_visited := ?stack_visited
        stackStates_iff := ?stackStates_iff
        stack_sorted := hbase_sorted
        visited_lt_counter := hwf.visited_lt_counter
        D_visited := ?D_visited
        popped_sub := ?popped_sub
        blocks_popped := ?blocks_popped
        blocks_nonempty := ?blocks_nonempty
        blocks_sorted := ?blocks_sorted
        blocks_disjoint := ?blocks_disjoint
        popped_closed := ?popped_closed
        blocks_scc := ?blocks_scc
        popped_char := ?popped_char
        lowlink_le := ?lowlink_le
        lowlink_witness := ?lowlink_witness
        D_stack_lowlink := ?D_stack_lowlink
        D_edges_visited := ?D_edges_visited
        D_edges_stack := ?D_edges_stack
        selfloop_sound := hwf.selfloop_sound
        selfloop_complete := ?selfloop_complete }
    case stack_nodup =>
      have := List.nodup_append.mp hnodup
      exact List.nodup_cons.mp this.2.1 |>.2
    case stack_sub =>
      intro x hx
      exact hwf.stack_sub x ((hmemstack x).mpr (Or.inr hx))
    case stack_visited =>
      intro x hx
      exact hwf.stack_visited x ((hmemstack x).mpr (Or.inr hx))
    case stackStates_iff =>
      intro x
      show flags2 x = true ↔ x ∈ st0.tarjanStack
      rw [hflags2eq x]
      by_cases hxU : x ∈ pre ++ [v]
      · rw [if_pos hxU]
        simp only [Bool.false_eq_true, false_iff]
        exact hUbase_disj x hxU
      · rw [if_neg hxU]
        rw [hwf.stackStates_iff x, hmemstack x]
        constructor
        · rintro (h | h)
          · exact absurd h hxU
          · exact h
        · exact Or.inr
    case D_visited =>
      intro x hx
      rcases hsetsplit x hx with rfl | hx2
      · exact hInv.visited_v
      · exact hwf.D_visited x hx2
    case popped_sub =>
      intro x hx
      rcases (hPopC x).mp hx with h | h
      · exact hwf.popped_sub x h
      · exact hUsub x h
    case blocks_popped =>
      intro B hB x hx
      rcases hblocks2_cases B hB with h | ⟨_, rfl⟩
      · exact (hPopC x).mpr (Or.inl (hwf.blocks_popped B h x hx))
      · exact (hPopC x).mpr (Or.inr ((hmem_scc x).mp hx))
    case blocks_nonempty =>
      intro B hB
      rcases hblocks2_cases B hB with h | ⟨_, rfl⟩
      · exact hwf.blocks_nonempty B h
      · exact hscc_ne
    case blocks_sorted =>
      intro B hB
      rcases hblocks2_cases B hB with h | ⟨_, rfl⟩
      · exact hwf.blocks_sorted B h
      · exact hsorted_scc
    case blocks_disjoint =>
      show List.Pairwise (fun B1 B2 => ∀ x, x ∈ B1 → x ∉ B2) blocks2
      rw [hblocks2]
      split
      · rw [List.pairwise_append]
        refine ⟨hwf.blocks_disjoint, List.pairwise_singleton _ _, ?_⟩
        intro B1 hB1 B2 hB2 x hx1 hx2
        rw [List.mem_singleton.mp hB2] at hx2
        have hP := hwf.blocks_popped B1 hB1 x hx1
        exact hP.2 (hUstack x ((hmem_scc x).mp hx2))
      · exact hwf.blocks_disjoint
    case popped_closed =>
      intro x hx e he hesub
      rcases (hPopC x).mp hx with h | h
      · exact (hPopC e.1).mpr (Or.inl (hwf.popped_closed x h e he hesub))
      · rcases f8 x h e he hesub with h2 | h2
        · exact (hPopC e.1).mpr (Or.inr h2)
        · exact (hPopC e.1).mpr (Or.inl h2)
    case blocks_scc =>
      intro B hB s hs t
      rcases hblocks2_cases B hB with h | ⟨_, rfl⟩
      · exact hwf.blocks_scc B h s hs t
      · exact hscc_blockfact s hs t
    case popped_char =>
      intro x hx
      rcases (hPopC x).mp hx with h | h
      · rcases hwf.popped_char x h with ⟨B, hB, hxB⟩ | h2
        · exact Or.inl ⟨B, hblocks2_sup B hB, hxB⟩
        · exact Or.inr h2
      · by_cases hk : keepb = true
        · refine Or.inl ⟨sccL, ?_, (hmem_scc x).mpr h⟩
          show sccL ∈ blocks2
          rw [hblocks2, if_pos hk]
          exact List.mem_append_right _ (List.mem_singleton.mpr rfl)
        · -- the component was dropped: it is a trivial singleton without self-loop
          have hdropN : dropN = true := by
            cases hD : dropN
            · exfalso
              apply hk
              rw [hkeepb, hD]
              simp
            · rfl
          have hlen : ¬ 1 < sccL.length := by
            intro hl
            apply hk
            rw [hkeepb]
            simp [hl]
          have hflag : stS.statesWithSelfloop (sccL.headD 0) ≠ true := by
            intro hf
            apply hk
            rw [hkeepb, hf]
            simp
          have hlen1 : sccL.length = 1 := by
            have h0 : 0 < sccL.length := List.length_pos.mpr hscc_ne
            omega
          obtain ⟨z, hz⟩ := List.length_eq_one.mp hlen1
          have hzv : z = v := by
            have := hv_scc
            rw [hz] at this
            exact (List.mem_singleton.mp this).symm
          have hxv : x = v := by
            have := (hmem_scc x).mpr h
            rw [hz, hzv] at this
            exact List.mem_singleton.mp this
          refine Or.inr ⟨hdropN, ?_, ?_⟩
          · rw [hxv]
            intro t ht hmut
            have htU := f6b t hmut.1 hmut.2
            have := (hmem_scc t).mpr htU
            rw [hz, hzv] at this
            exact List.mem_singleton.mp this
          · rw [hxv]
            intro hse
            apply hflag
            rw [hz, hzv]
            show stS.statesWithSelfloop v = true
            obtain ⟨e, he, he1⟩ := hse
            exact hInv.selfloop_v hdropN ⟨e, he, he1⟩
    case lowlink_le =>
      intro x hx
      exact hwf.lowlink_le x ((hmemstack x).mpr (Or.inr hx))
    case lowlink_witness =>
      intro x hx hlt
      obtain ⟨y, hy, hyi, hyr⟩ :=
        hwf.lowlink_witness x ((hmemstack x).mpr (Or.inr hx)) hlt
      have hylow : stS.stateIndices y < stS.stateIndices v := by
        have h1 := hwf.lowlink_le x ((hmemstack x).mpr (Or.inr hx))
        have h2 := hidx_base x hx
        omega
      have hybase : y ∈ st0.tarjanStack := by
        rcases (hmemstack y).mp hy with h | h
        · exfalso
          rcases List.mem_append.mp h with h2 | h2
          · have := hidx_pre y h2
            omega
          · rw [List.mem_singleton.mp h2] at hylow
            omega
        · exact h
      exact ⟨y, hybase, hyi, hyr⟩
    case D_stack_lowlink =>
      intro x hx hxD
      rcases hsetsplit x hxD with rfl | hx2
      · exact absurd hx hvbase
      · exact hwf.D_stack_lowlink x ((hmemstack x).mpr (Or.inr hx)) hx2
    case D_edges_visited =>
      intro x hx e he hesub
      rcases hsetsplit x hx with rfl | hx2
      · exact hInv.done_visited e he hesub
      · exact hwf.D_edges_visited x hx2 e he hesub
    case D_edges_stack =>
      intro x hx e he hesub hestack
      have hestack' : e.1 ∈ stS.tarjanStack := (hmemstack e.1).mpr (Or.inr hestack)
      rcases hsetsplit x hx with rfl | hx2
      · exact hInv.done_stack e he hesub hestack'
      · exact hwf.D_edges_stack x hx2 e he hesub hestack'
    case selfloop_complete =>
      intro hd x hx hse
      rcases hsetsplit x hx with rfl | hx2
      · obtain ⟨e, he, he1⟩ := hse
        exact hInv.selfloop_v hd ⟨e, he, he1⟩
      · exact hwf.selfloop_complete hd x hx2 hse

end storm

namespace storm

/-- The main specification of the recursive depth-first search. -/
theorem dfs_spec (m : AbstractModel) (subsystem : List Nat) (dropN : Bool) :
    ∀ (fuel : Nat) (v : Nat) (st : TarjanState) (D : Set Nat),
      WF m subsystem dropN D st → v ∈ subsystem → ¬ st.visitedStates v = true →
      unvisitedCount subsystem st < fuel →
      DfsPost m subsystem dropN D v st (dfs m subsystem dropN false fuel v st) := by
  intro fuel
  induction fuel with
  | zero =>
    intro v st D _ _ _ hcount
    omega
  | succ k ihk =>
    intro v st D hwf hv hnv hcount
    have hvD : v ∉ D := fun h => hnv (hwf.D_visited v h)
    have hinit := scanInv_init m subsystem dropN D v st hwf hv hnv hvD
    have hscan := dfsEntries_spec m subsystem dropN D v st k hv hcount ihk
      (m.getRows v) [] (visitState v st) (by simp) hinit
    show DfsPost m subsystem dropN D v st
      (if (((dfsEntries subsystem dropN false (dfs m subsystem dropN false k) v
          (m.getRows v) (visitState v st)).lowlinks v ==
        (dfsEntries subsystem dropN false (dfs m subsystem dropN false k) v
          (m.getRows v) (visitState v st)).stateIndices v) = true)
      then closeScc dropN false v
        (dfsEntries subsystem dropN false (dfs m subsystem dropN false k) v
          (m.getRows v) (visitState v st))
      else (dfsEntries subsystem dropN false (dfs m subsystem dropN false k) v
        (m.getRows v) (visitState v st)))
    by_cases hroot : (dfsEntries subsystem dropN false (dfs m subsystem dropN false k) v
        (m.getRows v) (visitState v st)).lowlinks v =
      (dfsEntries subsystem dropN false (dfs m subsystem dropN false k) v
        (m.getRows v) (visitState v st)).stateIndices v
    · rw [if_pos (by rw [beq_iff_eq]; exact hroot)]
      exact dfsPost_close m subsystem dropN D v st _ hv hscan hroot
    · rw [if_neg (by rw [beq_iff_eq]; exact hroot)]
      exact dfsPost_noclose m subsystem dropN D v st _ hscan hroot

end storm

namespace storm

/-- Well-formedness is antitone in the completed set. -/
theorem wf_mono (m : AbstractModel) (subsystem : List Nat) (dropN : Bool)
    (D D' : Set Nat) (st : TarjanState) (hsub : D' ⊆ D) (hwf : WF m subsystem dropN D st) :
    WF m subsystem dropN D' st :=
  { stack_nodup := hwf.stack_nodup
    stack_sub := hwf.stack_sub
    stack_visited := hwf.stack_visited
    stackStates_iff := hwf.stackStates_iff
    stack_sorted := hwf.stack_sorted
    visited_lt_counter := hwf.visited_lt_counter
    D_visited := fun x hx => hwf.D_visited x (hsub hx)
    popped_sub := hwf.popped_sub
    blocks_popped := hwf.blocks_popped
    blocks_nonempty := hwf.blocks_nonempty
    blocks_sorted := hwf.blocks_sorted
    blocks_disjoint := hwf.blocks_disjoint
    popped_closed := hwf.popped_closed
    blocks_scc := hwf.blocks_scc
    popped_char := hwf.popped_char
    lowlink_le := hwf.lowlink_le
    lowlink_witness := hwf.lowlink_witness
    D_stack_lowlink := fun x hx hxD => hwf.D_stack_lowlink x hx (hsub hxD)
    D_edges_visited := fun x hx => hwf.D_edges_visited x (hsub hx)
    D_edges_stack := fun x hx => hwf.D_edges_stack x (hsub hx)
    selfloop_sound := hwf.selfloop_sound
    selfloop_complete := fun hd x hx => hwf.selfloop_complete hd x (hsub hx) }

/-- Resetting the per-call bit vectors preserves well-formedness with an
empty completed set. -/
theorem wf_reset (m : AbstractModel) (subsystem : List Nat) (dropN : Bool)
    (D : Set Nat) (st : TarjanState) (hwf : WF m subsystem dropN D st) :
    WF m subsystem dropN ∅
      { st with
        statesWithSelfloop := fun _ => false
        statesThatCanLeaveTheirScc := fun _ => false } :=
  { stack_nodup := hwf.stack_nodup
    stack_sub := hwf.stack_sub
    stack_visited := hwf.stack_visited
    stackStates_iff := hwf.stackStates_iff
    stack_sorted := hwf.stack_sorted
    visited_lt_counter := hwf.visited_lt_counter
    D_visited := fun x hx => absurd hx (Set.not_mem_empty x)
    popped_sub := hwf.popped_sub
    blocks_popped := hwf.blocks_popped
    blocks_nonempty := hwf.blocks_nonempty
    blocks_sorted := hwf.blocks_sorted
    blocks_disjoint := hwf.blocks_disjoint
    popped_closed := hwf.popped_closed
    blocks_scc := hwf.blocks_scc
    popped_char := hwf.popped_char
    lowlink_le := hwf.lowlink_le
    lowlink_witness := hwf.lowlink_witness
    D_stack_lowlink := fun x _ hxD => absurd hxD (Set.not_mem_empty x)
    D_edges_visited := fun x hx => absurd hx (Set.not_mem_empty x)
    D_edges_stack := fun x hx => absurd hx (Set.not_mem_empty x)
    selfloop_sound := fun x hx => by simp at hx
    selfloop_complete := fun _ x hx => absurd hx (Set.not_mem_empty x) }

/-- The initial Tarjan environment is well formed. -/
theorem wf_initial (m : AbstractModel) (subsystem : List Nat) (dropN : Bool) :
    WF m subsystem dropN ∅ initialTarjanState := by
  refine
    { stack_nodup := List.nodup_nil
      stack_sub := by simp [initialTarjanState]
      stack_visited := by simp [initialTarjanState]
      stackStates_iff := by simp [initialTarjanState]
      stack_sorted := List.chain'_nil
      visited_lt_counter := by simp [initialTarjanState]
      D_visited := fun x hx => absurd hx (Set.not_mem_empty x)
      popped_sub := ?popped_sub
      blocks_popped := by simp [initialTarjanState]
      blocks_nonempty := by simp [initialTarjanState]
      blocks_sorted := by simp [initialTarjanState]
      blocks_disjoint := by simp [initialTarjanState]
      popped_closed := ?popped_closed
      blocks_scc := by simp [initialTarjanState]
      popped_char := ?popped_char
      lowlink_le := by simp [initialTarjanState]
      lowlink_witness := by simp [initialTarjanState]
      D_stack_lowlink := fun x _ hxD => absurd hxD (Set.not_mem_empty x)
      D_edges_visited := fun x hx => absurd hx (Set.not_mem_empty x)
      D_edges_stack := fun x hx => absurd hx (Set.not_mem_empty x)
      selfloop_sound := by simp [initialTarjanState]
      selfloop_complete := fun _ x hx => absurd hx (Set.not_mem_empty x) }
  case popped_sub =>
    intro x hx
    exact absurd hx.1 (by simp [initialTarjanState])
  case popped_closed =>
    intro x hx
    exact absurd hx.1 (by simp [initialTarjanState])
  case popped_char =>
    intro x hx
    exact absurd hx.1 (by simp [initialTarjanState])

theorem exists_min_index (f : Nat → Nat) (l : List Nat) (h : l ≠ []) :
    ∃ x ∈ l, ∀ y ∈ l, f x ≤ f y := by
  induction l with
  | nil => exact absurd rfl h
  | cons a as ih =>
    cases as with
    | nil =>
      refine ⟨a, List.mem_cons_self a [], ?_⟩
      intro y hy
      rw [List.mem_singleton.mp hy]
    | cons b bs =>
      obtain ⟨x, hx, hmin⟩ := ih (by simp)
      by_cases hax : f a ≤ f x
      · refine ⟨a, List.mem_cons_self _ _, ?_⟩
        intro y hy
        rcases List.mem_cons.mp hy with rfl | hy2
        · exact le_refl _
        · exact le_trans hax (hmin y hy2)
      · refine ⟨x, List.mem_cons_of_mem a hx, ?_⟩
        intro y hy
        rcases List.mem_cons.mp hy with rfl | hy2
        · omega
        · exact hmin y hy2

/-- A completed root call leaves the Tarjan stack in its initial (empty)
state. -/
theorem helper_stack_empty (m : AbstractModel) (subsystem : List Nat) (dropN : Bool)
    (D : Set Nat) (v : Nat) (st st' : TarjanState)
    (P : DfsPost m subsystem dropN D v st st') (hempty : st.tarjanStack = []) :
    st'.tarjanStack = [] := by
  by_contra hne
  obtain ⟨pre, hpre, hpremem⟩ := P.stack_shape
  rw [hempty, List.append_nil] at hpre
  have hallnew : ∀ x ∈ st'.tarjanStack, x ∈ NewStates st st' := by
    intro x hx
    exact hpremem x (by rwa [← hpre])
  have hvnot : v ∉ st'.tarjanStack := by
    rcases P.root_pop with ⟨_, hv⟩ | ⟨hlow, hv⟩
    · exact hv
    · exfalso
      have hidx : st'.stateIndices v = st.currentIndex := P.index_v
      obtain ⟨y, hy, hyi, _⟩ := P.wf.lowlink_witness v hv (by omega)
      have hynew := hallnew y hy
      have := P.new_index_ge y hynew
      omega
  obtain ⟨x, hx, hxmin⟩ := exists_min_index st'.stateIndices st'.tarjanStack hne
  have hxnew := hallnew x hx
  have hxD : x ∈ D ∪ NewStates st st' := Or.inr hxnew
  have hlow := P.wf.D_stack_lowlink x hx hxD
  obtain ⟨y, hy, hyi, _⟩ := P.wf.lowlink_witness x hx hlow
  have := hxmin y hy
  omega

/-- The specification of performSccDecompositionHelper: starting from an
empty stack it visits the component of the start state, leaves the stack
empty again and preserves well-formedness. -/
theorem helper_spec (m : AbstractModel) (subsystem : List Nat) (dropN : Bool)
    (s : Nat) (st : TarjanState) (hwf : WF m subsystem dropN ∅ st)
    (hs : s ∈ subsystem) (hns : ¬ st.visitedStates s = true)
    (hempty : st.tarjanStack = [])
    (hcount : unvisitedCount subsystem st < m.numberOfStates + 1) :
    WF m subsystem dropN ∅ (performSccDecompositionHelper m subsystem dropN false s st) ∧
    (performSccDecompositionHelper m subsystem dropN false s st).tarjanStack = [] ∧
    (∀ x, st.visitedStates x = true →
      (performSccDecompositionHelper m subsystem dropN false s st).visitedStates x = true) ∧
    (performSccDecompositionHelper m subsystem dropN false s st).visitedStates s = true ∧
    (∃ nb, (performSccDecompositionHelper m subsystem dropN false s st).blocks =
      st.blocks ++ nb) := by
  have hwfR := wf_reset m subsystem dropN ∅ st hwf
  have P := dfs_spec m subsystem dropN (m.numberOfStates + 1) s
    { st with
      statesWithSelfloop := fun _ => false
      statesThatCanLeaveTheirScc := fun _ => false } ∅ hwfR hs hns hcount
  refine ⟨wf_mono m subsystem dropN _ ∅ _ (Set.empty_subset _) P.wf,
    helper_stack_empty m subsystem dropN ∅ s _ _ P hempty,
    fun x hx => P.visited_mono x hx, P.visited_v, ?_⟩
  obtain ⟨nb, hnb, _⟩ := P.blocks_shape
  exact ⟨nb, hnb⟩

end storm

namespace storm

/-- Folding the helper over start states preserves the invariants and
visits every listed state. -/
theorem performScc_fold (m : AbstractModel) (subsystem : List Nat) (dropN : Bool) :
    ∀ (l : List Nat) (st : TarjanState),
      (∀ x ∈ l, x ∈ subsystem) →
      WF m subsystem dropN ∅ st → st.tarjanStack = [] →
      unvisitedCount subsystem st < m.numberOfStates + 1 →
      WF m subsystem dropN ∅
        (l.foldl (fun acc s => if acc.visitedStates s then acc
          else performSccDecompositionHelper m subsystem dropN false s acc) st) ∧
      (l.foldl (fun acc s => if acc.visitedStates s then acc
        else performSccDecompositionHelper m subsystem dropN false s acc) st).tarjanStack = [] ∧
      (∀ x, st.visitedStates x = true →
        (l.foldl (fun acc s => if acc.visitedStates s then acc
          else performSccDecompositionHelper m subsystem dropN false s acc) st).visitedStates x
            = true) ∧
      (∀ s ∈ l,
        (l.foldl (fun acc s => if acc.visitedStates s then acc
          else performSccDecompositionHelper m subsystem dropN false s acc) st).visitedStates s
            = true) := by
  intro l
  induction l with
  | nil =>
    intro st _ hwf hempty _
    exact ⟨hwf, hempty, fun x hx => hx, by simp⟩
  | cons a rest ih =>
    intro st hmem hwf hempty hcount
    simp only [List.foldl_cons]
    by_cases hviz : st.visitedStates a = true
    · rw [if_pos hviz]
      obtain ⟨hwf2, hempty2, hmono2, hvis2⟩ :=
        ih st (fun x hx => hmem x (List.mem_cons_of_mem a hx)) hwf hempty hcount
      refine ⟨hwf2, hempty2, hmono2, ?_⟩
      intro s hs
      rcases List.mem_cons.mp hs with rfl | hs2
      · exact hmono2 s hviz
      · exact hvis2 s hs2
    · rw [if_neg hviz]
      obtain ⟨hwf1, hempty1, hmono1, hvisa, _⟩ :=
        helper_spec m subsystem dropN a st hwf (hmem a (List.mem_cons_self a rest))
          hviz hempty hcount
      have hcount1 : unvisitedCount subsystem
          (performSccDecompositionHelper m subsystem dropN false a st) <
          m.numberOfStates + 1 := by
        have := unvisitedCount_le_of_mono subsystem st _ hmono1
        omega
      obtain ⟨hwf2, hempty2, hmono2, hvis2⟩ :=
        ih _ (fun x hx => hmem x (List.mem_cons_of_mem a hx)) hwf1 hempty1 hcount1
      refine ⟨hwf2, hempty2, fun x hx => hmono2 x (hmono1 x hx), ?_⟩
      intro s hs
      rcases List.mem_cons.mp hs with rfl | hs2
      · exact hmono2 s hvisa
      · exact hvis2 s hs2

/-- A strictly ascending list of naturals below N has at most N entries. -/
theorem sorted_bounded_length (l : List Nat) (N : Nat) (hsort : l.Chain' (· < ·))
    (hlt : ∀ x ∈ l, x < N) : l.length ≤ N := by
  haveI : IsTrans Nat (· < ·) := ⟨fun _ _ _ => Nat.lt_trans⟩
  have hpw : l.Pairwise (· < ·) := List.chain'_iff_pairwise.mp hsort
  have hnodup : l.Nodup := hpw.imp Nat.ne_of_lt
  have hsubset : l.toFinset ⊆ Finset.range N := by
    intro x hx
    rw [Finset.mem_range]
    exact hlt x (List.mem_toFinset.mp hx)
  have hcard := Finset.card_le_card hsubset
  rw [Finset.card_range, List.toFinset_card_of_nodup hnodup] at hcard
  exact hcard

/-- The master correctness theorem of the SCC engine (without the
bottom-only option): the blocks are pairwise disjoint nonempty sorted
subsets of the subsystem, each block is exactly the strongly connected
component of each of its members, and every subsystem state is covered by
a block unless dropNaiveSccs dropped it as a trivial singleton without a
stored self-loop entry. -/
theorem performScc_master (m : AbstractModel) (subsystem : List Nat) (dropN : Bool)
    (hlt : ∀ s ∈ subsystem, s < m.numberOfStates)
    (hsorted : subsystem.Chain' (· < ·)) :
    List.Pairwise (fun B1 B2 => ∀ x, x ∈ B1 → x ∉ B2)
      (performSccDecomposition m subsystem dropN false) ∧
    (∀ B ∈ performSccDecomposition m subsystem dropN false,
      B ≠ [] ∧ B.Chain' (· < ·) ∧ ∀ x ∈ B, x ∈ subsystem) ∧
    (∀ B ∈ performSccDecomposition m subsystem dropN false, ∀ s ∈ B, ∀ t,
      t ∈ B ↔ (t ∈ subsystem ∧ MutualReach m subsystem s t)) ∧
    (∀ s ∈ subsystem, (∃ B ∈ performSccDecomposition m subsystem dropN false, s ∈ B) ∨
      (dropN = true ∧ TrivialScc m subsystem s ∧ ¬ selfEntry m s)) := by
  have hcount : unvisitedCount subsystem initialTarjanState < m.numberOfStates + 1 := by
    have h1 : unvisitedCount subsystem initialTarjanState = subsystem.length := by
      unfold unvisitedCount initialTarjanState
      simp
    have h2 := sorted_bounded_length subsystem m.numberOfStates hsorted hlt
    omega
  obtain ⟨hwfF, hstF, hmonoF, hvisF⟩ :=
    performScc_fold m subsystem dropN subsystem initialTarjanState (fun x hx => hx)
      (wf_initial m subsystem dropN) rfl hcount
  refine ⟨hwfF.blocks_disjoint, ?_, hwfF.blocks_scc, ?_⟩
  · intro B hB
    exact ⟨hwfF.blocks_nonempty B hB, hwfF.blocks_sorted B hB,
      fun x hx => hwfF.popped_sub x (hwfF.blocks_popped B hB x hx)⟩
  · intro s hs
    have hPop : (subsystem.foldl (fun acc s => if acc.visitedStates s then acc
        else performSccDecompositionHelper m subsystem dropN false s acc)
        initialTarjanState).Popped s := by
      refine ⟨hvisF s hs, ?_⟩
      rw [hstF]
      exact List.not_mem_nil s
    exact hwfF.popped_char s hPop

/-- C2 amended: with no options, the SCC engine outputs exactly the
strongly connected components of the stored-entry graph restricted to the
subsystem: pairwise disjoint blocks whose union is the subsystem, each
being the full mutual-reachability class of each of its members. -/
theorem c2_scc_decomposition_exact (m : AbstractModel) (subsystem : List Nat)
    (hlt : ∀ s ∈ subsystem, s < m.numberOfStates)
    (hsorted : subsystem.Chain' (· < ·)) :
    List.Pairwise (fun B1 B2 => ∀ x, x ∈ B1 → x ∉ B2)
      (performSccDecomposition m subsystem false false) ∧
    (∀ s, (∃ B ∈ performSccDecomposition m subsystem false false, s ∈ B) ↔ s ∈ subsystem) ∧
    (∀ B ∈ performSccDecomposition m subsystem false false, ∀ s ∈ B, ∀ t,
      t ∈ B ↔ (t ∈ subsystem ∧ MutualReach m subsystem s t)) := by
  obtain ⟨hdisj, hblocks, hscc, hchar⟩ :=
    performScc_master m subsystem false hlt hsorted
  refine ⟨hdisj, ?_, hscc⟩
  intro s
  constructor
  · rintro ⟨B, hB, hsB⟩
    exact (hblocks B hB).2.2 s hsB
  · intro hs
    rcases hchar s hs with h | ⟨h, _⟩
    · exact h
    · exact absurd h (by simp)

/-- Witness for C2 amended at a concrete model. -/
theorem c2_scc_decomposition_exact_witness :
    (∀ s ∈ ([0, 1, 2] : List Nat), s < mC1.numberOfStates) ∧
    ([0, 1, 2] : List Nat).Chain' (· < ·) ∧
    (List.Pairwise (fun B1 B2 => ∀ x, x ∈ B1 → x ∉ B2)
      (performSccDecomposition mC1 [0, 1, 2] false false) ∧
    (∀ s, (∃ B ∈ performSccDecomposition mC1 [0, 1, 2] false false, s ∈ B) ↔
      s ∈ ([0, 1, 2] : List Nat)) ∧
    (∀ B ∈ performSccDecomposition mC1 [0, 1, 2] false false, ∀ s ∈ B, ∀ t,
      t ∈ B ↔ (t ∈ ([0, 1, 2] : List Nat) ∧ MutualReach mC1 [0, 1, 2] s t))) :=
  ⟨by decide, by norm_num [List.chain'_cons],
    c2_scc_decomposition_exact mC1 [0, 1, 2] (by decide) (by norm_num [List.chain'_cons])⟩

/-- C4 amended: the refinement pass obtains the SCC list with the
drop-trivial option set (and no bottom-only option), so it covers every
state of the candidate except those forming trivial singleton SCCs
without a stored self-loop entry. -/
theorem c4_amended_scc_list_with_drop_trivial (m : AbstractModel) (K : List Nat)
    (hlt : ∀ s ∈ K, s < m.numberOfStates) (hsorted : K.Chain' (· < ·)) :
    mecSccs m K = performSccDecomposition m K true false ∧
    ∀ s ∈ K, (∃ B ∈ mecSccs m K, s ∈ B) ∨
      (TrivialScc m K s ∧ ¬ selfEntry m s) := by
  refine ⟨rfl, ?_⟩
  obtain ⟨_, _, _, hchar⟩ := performScc_master m K true hlt hsorted
  intro s hs
  rcases hchar s hs with h | ⟨_, h2, h3⟩
  · exact Or.inl h
  · exact Or.inr ⟨h2, h3⟩

/-- Witness for C4 amended at the concrete model mC4. -/
theorem c4_amended_scc_list_with_drop_trivial_witness :
    (∀ s ∈ ([0, 1] : List Nat), s < mC4.numberOfStates) ∧
    ([0, 1] : List Nat).Chain' (· < ·) ∧
    (mecSccs mC4 [0, 1] = performSccDecomposition mC4 [0, 1] true false ∧
    ∀ s ∈ ([0, 1] : List Nat), (∃ B ∈ mecSccs mC4 [0, 1], s ∈ B) ∨
      (TrivialScc mC4 [0, 1] s ∧ ¬ selfEntry mC4 s)) :=
  ⟨by decide, by norm_num [List.chain'_cons],
    c4_amended_scc_list_with_drop_trivial mC4 [0, 1] (by decide) (by norm_num [List.chain'_cons])⟩

end storm

namespace storm

theorem length_filter_lt (p : Nat → Bool) (l : List Nat) (x : Nat)
    (hx : x ∈ l) (hpx : p x = false) : (l.filter p).length < l.length := by
  induction l with
  | nil => simp at hx
  | cons a as ih =>
    rcases List.mem_cons.mp hx with rfl | hx2
    · rw [List.filter_cons, hpx]
      have := List.length_filter_le p as
      simp
      omega
    · rw [List.filter_cons]
      by_cases hpa : p a = true
      · rw [if_pos hpa]
        have := ih hx2
        simp
        omega
      · rw [if_neg hpa]
        have := ih hx2
        simp
        omega

theorem chain'_lt_filter (p : Nat → Bool) (l : List Nat) (h : l.Chain' (· < ·)) :
    (l.filter p).Chain' (· < ·) := by
  haveI : IsTrans Nat (· < ·) := ⟨fun _ _ _ => Nat.lt_trans⟩
  rw [List.chain'_iff_pairwise] at h ⊢
  exact h.sublist (List.filter_sublist l)

/-- The pruned SCC is a subset of the input, never longer, stays sorted,
and strictly shrinks whenever the removal flag is set. -/
theorem pruneLoop_spec (m : AbstractModel) : ∀ (fuel : Nat) (scc toCheck : List Nat),
    (∀ x ∈ (pruneLoop m fuel scc toCheck).1, x ∈ scc) ∧
    (pruneLoop m fuel scc toCheck).1.length ≤ scc.length ∧
    (scc.Chain' (· < ·) → (pruneLoop m fuel scc toCheck).1.Chain' (· < ·)) ∧
    ((∀ x ∈ toCheck, x ∈ scc) → (pruneLoop m fuel scc toCheck).2 = true →
      (pruneLoop m fuel scc toCheck).1.length < scc.length) := by
  intro fuel
  induction fuel with
  | zero =>
    intro scc toCheck
    refine ⟨fun x hx => hx, le_refl _, fun h => h, fun _ h => ?_⟩
    simp [pruneLoop] at h
  | succ k ih =>
    intro scc toCheck
    by_cases hemp : toCheck.isEmpty
    · rw [show pruneLoop m (k + 1) scc toCheck = (scc, false) by
        simp [pruneLoop, hemp]]
      exact ⟨fun x hx => hx, le_refl _, fun h => h, fun _ h => by simp at h⟩
    · by_cases hrem : (pruneStep m scc toCheck).2.2 = true
      · have heq : pruneLoop m (k + 1) scc toCheck =
            ((pruneLoop m k (pruneStep m scc toCheck).1
              (pruneStep m scc toCheck).2.1).1, true) := by
          simp [pruneLoop, hemp, hrem]
        obtain ⟨ihmem, ihlen, ihsort, _⟩ :=
          ih (pruneStep m scc toCheck).1 (pruneStep m scc toCheck).2.1
        have hstep1mem : ∀ x ∈ (pruneStep m scc toCheck).1, x ∈ scc := by
          intro x hx
          exact List.mem_of_mem_filter hx
        have hstep1len : (pruneStep m scc toCheck).1.length ≤ scc.length :=
          List.length_filter_le _ scc
        have hstep1sort : scc.Chain' (· < ·) → (pruneStep m scc toCheck).1.Chain' (· < ·) :=
          fun h => chain'_lt_filter _ scc h
        refine ⟨?_, ?_, ?_, ?_⟩
        · intro x hx
          rw [heq] at hx
          exact hstep1mem x (ihmem x hx)
        · rw [heq]
          exact le_trans ihlen hstep1len
        · intro h
          rw [heq]
          exact ihsort (hstep1sort h)
        · intro hsub _
          rw [heq]
          have hremne : (pruneStep m scc toCheck).2.2 = true := hrem
          have : ∃ x ∈ scc, x ∈ toCheck.filter
              (fun s => ! hasChoiceContainedInMEC m scc s) := by
            have h2 : ¬ (toCheck.filter
                (fun s => ! hasChoiceContainedInMEC m scc s)).isEmpty = true := by
              simpa [pruneStep] using hremne
            rw [List.isEmpty_iff] at h2
            obtain ⟨y, hy⟩ := List.exists_mem_of_ne_nil _ h2
            exact ⟨y, hsub y (List.mem_of_mem_filter hy), hy⟩
          obtain ⟨y, hyscc, hyrem⟩ := this
          have hlenlt : (pruneStep m scc toCheck).1.length < scc.length := by
            show (scc.filter _).length < scc.length
            refine length_filter_lt _ scc y hyscc ?_
            simpa using hyrem
          exact lt_of_le_of_lt ihlen hlenlt
      · rw [show pruneLoop m (k + 1) scc toCheck = (scc, false) by
          simp [pruneLoop, hemp, hrem]]
        exact ⟨fun x hx => hx, le_refl _, fun h => h, fun _ h => by simp at h⟩

end storm

namespace storm

theorem chain'_lt_nodup (l : List Nat) (h : l.Chain' (· < ·)) : l.Nodup := by
  haveI : IsTrans Nat (· < ·) := ⟨fun _ _ _ => Nat.lt_trans⟩
  exact (List.chain'_iff_pairwise.mp h).imp Nat.ne_of_lt

theorem nodup_subset_length_le (l K : List Nat) (hl : l.Nodup)
    (hsub : ∀ x ∈ l, x ∈ K) : l.length ≤ K.length :=
  (List.subperm_of_subset hl hsub).length_le

/-- Pairwise disjoint duplicate-free lists drawing their members from a
finite set have total length at most the size of that set. -/
theorem disjoint_blocks_sum (blocks : List (List Nat)) :
    ∀ (S : Finset Nat),
    blocks.Pairwise (fun B1 B2 => ∀ x, x ∈ B1 → x ∉ B2) →
    (∀ B ∈ blocks, B.Nodup) →
    (∀ B ∈ blocks, ∀ x ∈ B, x ∈ S) →
    (blocks.map List.length).sum ≤ S.card := by
  induction blocks with
  | nil => intro S _ _ _; simp
  | cons B rest ih =>
    intro S hpw hnd hsub
    rw [List.pairwise_cons] at hpw
    have hBnd : B.Nodup := hnd B (List.mem_cons_self B rest)
    have hBsub : B.toFinset ⊆ S := by
      intro x hx
      exact hsub B (List.mem_cons_self B rest) x (List.mem_toFinset.mp hx)
    have hrest : ((rest.map List.length).sum) ≤ (S \ B.toFinset).card := by
      refine ih (S \ B.toFinset) hpw.2 (fun B' h => hnd B' (List.mem_cons_of_mem B h)) ?_
      intro B' hB' x hx
      rw [Finset.mem_sdiff]
      refine ⟨hsub B' (List.mem_cons_of_mem B hB') x hx, ?_⟩
      intro hxB
      exact hpw.1 B' hB' x (List.mem_toFinset.mp hxB) hx
    have hcardB : B.length = B.toFinset.card := (List.toFinset_card_of_nodup hBnd).symm
    have hsd : (S \ B.toFinset).card = S.card - B.toFinset.card := Finset.card_sdiff hBsub
    have hle : B.toFinset.card ≤ S.card := Finset.card_le_card hBsub
    simp only [List.map_cons, List.sum_cons]
    omega

theorem pow_two_term_lt (x a b : Nat) (hx : 3 ≤ x) (ha : 1 ≤ a) (hb : 1 ≤ b) :
    x ^ a + x ^ b < x ^ (a + b) := by
  have h1 : x ^ a ≤ x ^ (a + b - 1) := Nat.pow_le_pow_right (by omega) (by omega)
  have h2 : x ^ b ≤ x ^ (a + b - 1) := Nat.pow_le_pow_right (by omega) (by omega)
  have h3 : 0 < x ^ (a + b - 1) := Nat.pos_pow_of_pos _ (by omega)
  have h4 : x ^ (a + b) = x ^ (a + b - 1) * x := by
    rw [← Nat.pow_succ]
    congr 1
    omega
  have h5 : x ^ (a + b - 1) * 3 ≤ x ^ (a + b - 1) * x := Nat.mul_le_mul_left _ hx
  omega

theorem sum_pow_bounds (x : Nat) (hx : 3 ≤ x) :
    ∀ (bs : List Nat), (∀ b ∈ bs, 1 ≤ b) →
    ((bs.map (fun b => x ^ b)).sum ≤ x ^ bs.sum) ∧
    (2 ≤ bs.length → (bs.map (fun b => x ^ b)).sum < x ^ bs.sum) := by
  intro bs
  induction bs with
  | nil =>
    intro _
    refine ⟨by simp, fun h => by simp at h⟩
  | cons b rest ih =>
    intro hb
    have ihr := ih (fun y hy => hb y (List.mem_cons_of_mem b hy))
    cases rest with
    | nil => exact ⟨by simp, fun h => by simp at h⟩
    | cons c cs =>
      have hrsum : 1 ≤ (c :: cs).sum := by
        have hc : 1 ≤ c := hb c (List.mem_cons_of_mem b (List.mem_cons_self c cs))
        simp only [List.sum_cons]
        omega
      have hkey : x ^ b + x ^ ((c :: cs).sum) < x ^ (b + (c :: cs).sum) :=
        pow_two_term_lt x b ((c :: cs).sum) hx (hb b (List.mem_cons_self b (c :: cs))) hrsum
      have hmain : ((b :: c :: cs).map (fun b => x ^ b)).sum < x ^ ((b :: c :: cs).sum) := by
        simp only [List.map_cons, List.sum_cons] at ihr ⊢
        have := ihr.1
        simp only [List.sum_cons] at hkey
        omega
      exact ⟨le_of_lt hmain, fun _ => hmain⟩

end storm

namespace storm

theorem mem_mecPass_blocks (m : AbstractModel) (K B : List Nat) :
    B ∈ (mecPass m K).2 ↔
    ((∃ scc ∈ mecSccs m K, (pruneLoop m (scc.length + 2) scc scc).1 = B) ∧ B ≠ []) := by
  show B ∈ (((mecSccs m K).map
      (fun scc => pruneLoop m (scc.length + 2) scc scc)).map
      (fun p => p.1)).filter (fun b => ! b.isEmpty) ↔ _
  rw [List.mem_filter, List.map_map, List.mem_map]
  simp only [Function.comp]
  constructor
  · rintro ⟨⟨scc, hscc, heq⟩, hne⟩
    refine ⟨⟨scc, hscc, heq⟩, ?_⟩
    simpa using hne
  · rintro ⟨⟨scc, hscc, heq⟩, hne⟩
    refine ⟨⟨scc, hscc, heq⟩, ?_⟩
    simpa using hne

/-- Every block a changed-or-not pass re-enqueues is a nonempty sorted
subset of the candidate. -/
theorem mecPass_props (m : AbstractModel) (K : List Nat)
    (hlt : ∀ s ∈ K, s < m.numberOfStates) (hsorted : K.Chain' (· < ·)) :
    ∀ B ∈ (mecPass m K).2, B ≠ [] ∧ B.Chain' (· < ·) ∧ ∀ x ∈ B, x ∈ K := by
  intro B hB
  obtain ⟨⟨scc, hscc, heq⟩, hne⟩ := (mem_mecPass_blocks m K B).mp hB
  obtain ⟨_, hprops, _, _⟩ := performScc_master m K true hlt hsorted
  obtain ⟨_, hsccsort, hsccsub⟩ := hprops scc hscc
  obtain ⟨hmem, _, hsort, _⟩ := pruneLoop_spec m (scc.length + 2) scc scc
  refine ⟨hne, ?_, ?_⟩
  · rw [← heq]
    exact hsort hsccsort
  · intro x hx
    rw [← heq] at hx
    exact hsccsub x (hmem x hx)

/-- The blocks a pass re-enqueues are pairwise disjoint. -/
theorem mecPass_disjoint (m : AbstractModel) (K : List Nat)
    (hlt : ∀ s ∈ K, s < m.numberOfStates) (hsorted : K.Chain' (· < ·)) :
    ((mecPass m K).2).Pairwise (fun B1 B2 => ∀ x, x ∈ B1 → x ∉ B2) := by
  obtain ⟨hdisj, _, _, _⟩ := performScc_master m K true hlt hsorted
  show ((((mecSccs m K).map
      (fun scc => pruneLoop m (scc.length + 2) scc scc)).map
      (fun p => p.1)).filter (fun b => ! b.isEmpty)).Pairwise _
  refine List.Pairwise.sublist (List.filter_sublist _) ?_
  rw [List.map_map, List.pairwise_map]
  refine hdisj.imp ?_
  intro s1 s2 h x hx1 hx2
  obtain ⟨hmem1, _, _, _⟩ := pruneLoop_spec m (s1.length + 2) s1 s1
  obtain ⟨hmem2, _, _, _⟩ := pruneLoop_spec m (s2.length + 2) s2 s2
  exact h x (hmem1 x hx1) (hmem2 x hx2)

theorem exists_other_disjoint (l : List (List Nat))
    (hpw : l.Pairwise (fun B1 B2 => ∀ x, x ∈ B1 → x ∉ B2))
    (hne : ∀ B ∈ l, B ≠ []) (h2 : 1 < l.length) (scc : List Nat) (hscc : scc ∈ l) :
    ∃ scc' ∈ l, (∀ x, x ∈ scc → x ∉ scc') ∧ scc' ≠ [] := by
  match l, h2 with
  | b1 :: b2 :: rest, _ =>
    rw [List.pairwise_cons] at hpw
    rcases List.mem_cons.mp hscc with rfl | htail
    · exact ⟨b2, List.mem_cons_of_mem _ (List.mem_cons_self b2 rest),
        hpw.1 b2 (List.mem_cons_self b2 rest),
        hne b2 (List.mem_cons_of_mem _ (List.mem_cons_self b2 rest))⟩
    · refine ⟨b1, List.mem_cons_self b1 (b2 :: rest), ?_,
        hne b1 (List.mem_cons_self b1 (b2 :: rest))⟩
      intro x hxs hxb1
      exact hpw.1 scc htail x hxb1 hxs

/-- When a pass reports a change, every re-enqueued block is strictly
smaller than the candidate it came from. -/
theorem mecPass_decrease (m : AbstractModel) (K : List Nat)
    (hlt : ∀ s ∈ K, s < m.numberOfStates) (hsorted : K.Chain' (· < ·)) :
    (mecPass m K).1 = true → ∀ B ∈ (mecPass m K).2, B.length < K.length := by
  intro hch B hB
  obtain ⟨⟨scc, hscc, heq⟩, _⟩ := (mem_mecPass_blocks m K B).mp hB
  obtain ⟨hdisj, hprops, _, _⟩ := performScc_master m K true hlt hsorted
  obtain ⟨hsccne, hsccsort, hsccsub⟩ := hprops scc hscc
  have hKnd : K.Nodup := chain'_lt_nodup K hsorted
  have hscclen : scc.length ≤ K.length :=
    nodup_subset_length_le scc K (chain'_lt_nodup scc hsccsort) hsccsub
  obtain ⟨_, hlen, _, hstrict⟩ := pruneLoop_spec m (scc.length + 2) scc scc
  by_cases h2 : 1 < (mecSccs m K).length
  · obtain ⟨scc', hscc', hdisj', hne'⟩ := exists_other_disjoint (mecSccs m K) hdisj
      (fun C hC => (hprops C hC).1) h2 scc hscc
    obtain ⟨_, hsort', hsub'⟩ := hprops scc' hscc'
    have hsum : ([scc, scc'].map List.length).sum ≤ K.toFinset.card := by
      refine disjoint_blocks_sum [scc, scc'] K.toFinset ?_ ?_ ?_
      · exact List.pairwise_cons.mpr ⟨fun C hC => by
          rw [List.mem_singleton.mp hC]; exact hdisj', List.pairwise_singleton _ _⟩
      · intro C hC
        rcases List.mem_cons.mp hC with rfl | hC2
        · exact chain'_lt_nodup C hsccsort
        · rw [List.mem_singleton.mp hC2]
          exact chain'_lt_nodup scc' hsort'
      · intro C hC x hx
        rw [List.mem_toFinset]
        rcases List.mem_cons.mp hC with rfl | hC2
        · exact hsccsub x hx
        · rw [List.mem_singleton.mp hC2] at hx
          exact hsub' x hx
    rw [List.toFinset_card_of_nodup hKnd] at hsum
    have hne'' : 1 ≤ scc'.length := List.length_pos.mpr hne'
    simp only [List.map_cons, List.map_nil, List.sum_cons, List.sum_nil] at hsum
    rw [← heq]
    omega
  · have hflag : ((mecSccs m K).map
        (fun scc => pruneLoop m (scc.length + 2) scc scc)).any (fun p => p.2) = true := by
      have : decide (1 < (mecSccs m K).length) = false := by
        simpa using h2
      have hch' : (decide (1 < (mecSccs m K).length) ||
          ((mecSccs m K).map
            (fun scc => pruneLoop m (scc.length + 2) scc scc)).any (fun p => p.2)) = true :=
        hch
      rw [this, Bool.false_or] at hch'
      exact hch'
    rw [List.any_eq_true] at hflag
    obtain ⟨p0, hp0, hpflag⟩ := hflag
    rw [List.mem_map] at hp0
    obtain ⟨scc0, hscc0, hfx⟩ := hp0
    have hflag0 : (pruneLoop m (scc0.length + 2) scc0 scc0).2 = true := by
      rw [hfx]
      exact hpflag
    have hsame : scc0 = scc := by
      match hl : mecSccs m K, h2, hscc, hscc0 with
      | [a], _, hs, hs0 =>
        rw [List.mem_singleton.mp hs0, List.mem_singleton.mp hs]
      | [], _, hs, _ => exact absurd hs (List.not_mem_nil scc)
      | a :: b :: t, hgt, _, _ =>
        exact absurd (by simp only [List.length_cons]; omega : 1 < (a :: b :: t).length) hgt
    rw [hsame] at hflag0
    have hlt' : (pruneLoop m (scc.length + 2) scc scc).1.length < scc.length :=
      hstrict (fun x hx => hx) hflag0
    rw [← heq]
    omega

end storm

namespace storm

/-- The decreasing measure of the outer fixpoint loop: each pending
candidate block B contributes (N + 3) ^ |B|. -/
def mecMeasure (m : AbstractModel) (todo : List (List Nat)) : Nat :=
  (todo.map (fun B => (m.numberOfStates + 3) ^ B.length)).sum

/-- A changed pass replaces the candidate's measure contribution by a
strictly smaller total. -/
theorem mecPass_measure_lt (m : AbstractModel) (K : List Nat)
    (hlt : ∀ s ∈ K, s < m.numberOfStates) (hsorted : K.Chain' (· < ·)) :
    (mecPass m K).1 = true →
    mecMeasure m (mecPass m K).2 < (m.numberOfStates + 3) ^ K.length := by
  intro hch
  have hx : 3 ≤ m.numberOfStates + 3 := by omega
  have hprops := mecPass_props m K hlt hsorted
  have hdec := mecPass_decrease m K hlt hsorted hch
  have hKnd : K.Nodup := chain'_lt_nodup K hsorted
  have hmeq : mecMeasure m (mecPass m K).2 =
      (((mecPass m K).2.map List.length).map
        (fun b => (m.numberOfStates + 3) ^ b)).sum := by
    unfold mecMeasure
    rw [List.map_map]
    rfl
  have hb1 : ∀ b ∈ (mecPass m K).2.map List.length, 1 ≤ b := by
    intro b hb
    rw [List.mem_map] at hb
    obtain ⟨B, hB, hBl⟩ := hb
    have := (hprops B hB).1
    rw [← hBl]
    exact List.length_pos.mpr this
  have hsum : ((mecPass m K).2.map List.length).sum ≤ K.length := by
    have := disjoint_blocks_sum (mecPass m K).2 K.toFinset
      (mecPass_disjoint m K hlt hsorted)
      (fun B hB => chain'_lt_nodup B (hprops B hB).2.1)
      (fun B hB x hx => List.mem_toFinset.mpr ((hprops B hB).2.2 x hx))
    rw [List.toFinset_card_of_nodup hKnd] at this
    exact this
  rw [hmeq]
  match hbl : (mecPass m K).2 with
  | [] =>
    simp only [List.map_nil, List.sum_nil]
    exact Nat.pos_pow_of_pos _ (by omega)
  | [B] =>
    simp only [List.map_cons, List.map_nil, List.sum_cons, List.sum_nil, Nat.add_zero]
    have hBlt : B.length < K.length := by
      refine hdec B ?_
      rw [hbl]
      exact List.mem_cons_self B []
    exact Nat.pow_lt_pow_right (by omega) hBlt
  | B1 :: B2 :: rest =>
    have h2 : 2 ≤ ((B1 :: B2 :: rest).map List.length).length := by
      simp only [List.map_cons, List.length_cons]
      omega
    have hstrict := (sum_pow_bounds (m.numberOfStates + 3) hx
      ((B1 :: B2 :: rest).map List.length) (hbl ▸ hb1)).2 h2
    have hle : (m.numberOfStates + 3) ^ ((B1 :: B2 :: rest).map List.length).sum ≤
        (m.numberOfStates + 3) ^ K.length :=
      Nat.pow_le_pow_right (by omega) (hbl ▸ hsum)
    omega

/-- If the fuel strictly dominates the measure and every pending candidate
is a sorted list of valid states, the outer loop completes. -/
theorem mecLoop_terminates (m : AbstractModel) :
    ∀ (fuel : Nat) (checked todo : List (List Nat)),
    (∀ K ∈ todo, (∀ s ∈ K, s < m.numberOfStates) ∧ K.Chain' (· < ·)) →
    mecMeasure m todo < fuel →
    (mecLoop m fuel checked todo).isSome = true := by
  intro fuel
  induction fuel with
  | zero =>
    intro checked todo _ hm
    omega
  | succ f ihf =>
    intro checked todo hinv hm
    match todo with
    | [] => rfl
    | K :: rest =>
      obtain ⟨hKlt, hKsort⟩ := hinv K (List.mem_cons_self K rest)
      have hmK : mecMeasure m (K :: rest) =
          (m.numberOfStates + 3) ^ K.length + mecMeasure m rest := by
        unfold mecMeasure
        simp
      by_cases hch : (mecPass m K).1 = true
      · have hstep : mecLoop m (f + 1) checked (K :: rest) =
            mecLoop m f checked (rest ++ (mecPass m K).2) := by
          simp only [mecLoop, hch, if_true]
        rw [hstep]
        refine ihf checked (rest ++ (mecPass m K).2) ?_ ?_
        · intro C hC
          rcases List.mem_append.mp hC with hC1 | hC2
          · exact hinv C (List.mem_cons_of_mem K hC1)
          · obtain ⟨_, hCsort, hCsub⟩ := mecPass_props m K hKlt hKsort C hC2
            exact ⟨fun s hs => hKlt s (hCsub s hs), hCsort⟩
        · have hma : mecMeasure m (rest ++ (mecPass m K).2) =
              mecMeasure m rest + mecMeasure m (mecPass m K).2 := by
            unfold mecMeasure
            rw [List.map_append, List.sum_append]
          have hlt' := mecPass_measure_lt m K hKlt hKsort hch
          omega
      · have hstep : mecLoop m (f + 1) checked (K :: rest) =
            mecLoop m f (checked ++ [K]) rest := by
          simp only [mecLoop, hch, if_false]
          rfl
        rw [hstep]
        refine ihf (checked ++ [K]) rest
          (fun C hC => hinv C (List.mem_cons_of_mem K hC)) ?_
        have hpos : 0 < (m.numberOfStates + 3) ^ K.length :=
          Nat.pos_pow_of_pos _ (by omega)
        omega

end storm

namespace storm

/-- C9: the MEC engine's outer fixpoint loop terminates on every finite
model and subsystem — the fuel mecFuel m strictly dominates the loop's
decreasing measure, so the embedded loop never exhausts it — and whenever a
pass marks a candidate as changed, every block it re-enqueues in its place
has strictly fewer states than the candidate. -/
theorem c9_mec_fixpoint_terminates (m : AbstractModel) (subsystem : List Nat)
    (hlt : ∀ s ∈ subsystem, s < m.numberOfStates)
    (hsorted : subsystem.Chain' (· < ·)) :
    (performMaximalEndComponentDecomposition m subsystem).isSome = true ∧
    (∀ K : List Nat, (∀ s ∈ K, s < m.numberOfStates) → K.Chain' (· < ·) →
      (mecPass m K).1 = true → ∀ B ∈ (mecPass m K).2, B.length < K.length) := by
  constructor
  · have hloop : (mecLoop m (mecFuel m) [] [subsystem]).isSome = true := by
      refine mecLoop_terminates m (mecFuel m) [] [subsystem] ?_ ?_
      · intro K hK
        rw [List.mem_singleton] at hK
        rw [hK]
        exact ⟨hlt, hsorted⟩
      · have hm1 : mecMeasure m [subsystem] =
            (m.numberOfStates + 3) ^ subsystem.length := by
          unfold mecMeasure
          simp
        have hlen : subsystem.length ≤ m.numberOfStates :=
          sorted_bounded_length subsystem m.numberOfStates hsorted hlt
        have hpow : (m.numberOfStates + 3) ^ subsystem.length <
            (m.numberOfStates + 3) ^ (m.numberOfStates + 1) :=
          Nat.pow_lt_pow_right (by omega) (by omega)
        unfold mecFuel
        omega
    obtain ⟨v, hv⟩ := Option.isSome_iff_exists.mp hloop
    unfold performMaximalEndComponentDecomposition
    rw [hv]
    rfl
  · intro K h1 h2 h3 B hB
    exact mecPass_decrease m K h1 h2 h3 B hB

theorem c9_mec_fixpoint_terminates_witness :
    ((∀ s ∈ [0, 1, 2], s < mC1.numberOfStates) ∧
      List.Chain' (· < ·) [0, 1, 2]) ∧
    ((performMaximalEndComponentDecomposition mC1 [0, 1, 2]).isSome = true ∧
    (∀ K : List Nat, (∀ s ∈ K, s < mC1.numberOfStates) → K.Chain' (· < ·) →
      (mecPass mC1 K).1 = true → ∀ B ∈ (mecPass mC1 K).2, B.length < K.length)) :=
  ⟨⟨by decide, by norm_num [List.chain'_cons]⟩,
    c9_mec_fixpoint_terminates mC1 [0, 1, 2] (by decide) (by norm_num [List.chain'_cons])⟩

end storm
